import Mathlib

/-!
Shallow embedding of the signaling core of the video-chat application:
the server-side room registry and relay (server/index.js) and the
client-side peer-session manager and video reducer
(src/contexts/VideoContext.tsx), together with proofs of the spec's
claims about them.
-/

namespace VideoChat

/-! ## Server data model (server/index.js) -/

/-- A participant record as stored in a room's `Map` on the server:
`{ id: socket.id, name: userName, audioEnabled, videoEnabled }`. -/
structure Participant where
  id : String
  name : String
  audioEnabled : Bool
  videoEnabled : Bool
deriving DecidableEq, Repr

/-- A chat message object as built by the client's `sendChatMessage` and
relayed verbatim by the server: `{ id, senderId, senderName, message,
timestamp }`. -/
structure ChatMsg where
  msgId : String
  senderId : String
  senderName : String
  message : String
  timestamp : Nat
deriving DecidableEq, Repr

/-- JS `Map.set` on a string-keyed association list: replace the entry in
place when the key is present, append otherwise. -/
def mapSetR {α : Type} : List (String × α) → String → α → List (String × α)
  | [], k, v => [(k, v)]
  | (k', v') :: rest, k, v =>
      if k' = k then (k, v) :: rest else (k', v') :: mapSetR rest k v

/-- JS `Map.get` on a string-keyed association list. -/
def mapGetR {α : Type} : List (String × α) → String → Option α
  | [], _ => none
  | (k', v) :: rest, k => if k' = k then some v else mapGetR rest k

/-- JS `Map.delete` on a string-keyed association list. -/
def mapDelR {α : Type} : List (String × α) → String → List (String × α)
  | [], _ => []
  | (k', v) :: rest, k => if k' = k then rest else (k', v) :: mapDelR rest k

/-- A room's participant `Map` (keyed by `p.id`), in insertion order. -/
abbrev Room := List Participant

/-- `room.set(socket.id, participant)`: replace in place or append. -/
def roomSet : Room → Participant → Room
  | [], p => [p]
  | q :: qs, p => if q.id = p.id then p :: qs else q :: roomSet qs p

/-- `room.delete(socket.id)`. -/
def roomDelete : Room → String → Room
  | [], _ => []
  | q :: qs, i => if q.id = i then qs else q :: roomDelete qs i

/-- `room.get(socket.id)`. -/
def roomFind : Room → String → Option Participant
  | [], _ => none
  | q :: qs, i => if q.id = i then some q else roomFind qs i

/-- The per-connection socket object, as the server uses it: its id, the
`socket.userName` and `socket.roomId` fields the handlers attach to it,
its socket.io room memberships (`socket.join` / `socket.leave`), and
whether the transport is still connected. -/
structure Sock where
  id : String
  userName : Option String
  roomIdField : Option String
  joined : List String
  connected : Bool
deriving DecidableEq, Repr

/-- `socket.join(roomId)`: socket.io rooms are a set. -/
def sockJoin (r : String) (s : Sock) : Sock :=
  if r ∈ s.joined then s else { s with joined := s.joined ++ [r] }

/-- `socket.leave(roomId)`. -/
def sockLeave (r : String) (s : Sock) : Sock :=
  { s with joined := s.joined.filter (fun r' => r' ≠ r) }

/-- The whole server state: the module-level `rooms` map and the set of
sockets the server has seen. -/
structure ServerState where
  rooms : List (String × Room)
  sockets : List Sock
deriving DecidableEq, Repr

/-- Update the socket with the given id (socket ids are unique). -/
def updSock (st : ServerState) (c : String) (f : Sock → Sock) : ServerState :=
  { st with sockets := st.sockets.map (fun s => if s.id = c then f s else s) }

/-- Payloads of the server's outbound events. -/
inductive Payload
  | existingParticipants (ps : List Participant)
  | userJoined (p : Participant)
  | userLeft (id : String)
  | chatMessage (m : ChatMsg)
  | audioToggle (participantId : String) (enabled : Bool)
  | videoToggle (participantId : String) (enabled : Bool)
deriving DecidableEq, Repr

/-- One outbound emission of a handler: `socket.emit` on a single
destination socket, or `socket.to(roomId).emit` (all members of the
socket.io room except the sender). -/
inductive Emit
  | direct (dest : String) (p : Payload)
  | room (roomId : String) (exceptId : String) (p : Payload)
deriving DecidableEq, Repr

/-! ### Server event handlers (second `io.on('connection')` block,
server/index.js lines 229-373) -/

/-- The `join-room` handler (lines 233-269): `socket.join`, set
`socket.userName` / `socket.roomId`, create the room when absent, insert
the participant, send `existing-participants` to the joiner when the
list is non-empty, then broadcast `user-joined` to the rest of the room. -/
def joinRoom (st : ServerState) (sockId roomId userName : String) :
    ServerState × List Emit :=
  let st1 := updSock st sockId (fun s =>
    { sockJoin roomId s with userName := some userName, roomIdField := some roomId })
  let rooms1 := if (mapGetR st1.rooms roomId).isSome then st1.rooms
                else st1.rooms ++ [(roomId, [])]
  let room := (mapGetR rooms1 roomId).getD []
  let newP : Participant := ⟨sockId, userName, true, true⟩
  let room1 := roomSet room newP
  let rooms2 := mapSetR rooms1 roomId room1
  let existing := room1.filter (fun p => p.id ≠ sockId)
  let emits :=
    (if existing.isEmpty then [] else
      [Emit.direct sockId (Payload.existingParticipants existing)]) ++
    [Emit.room roomId sockId (Payload.userJoined newP)]
  ({ st1 with rooms := rooms2 }, emits)

/-- The `disconnect` handler (lines 334-352) followed by the transport
teardown: delete the participant from `rooms.get(socket.roomId)`, emit
`user-left`, drop the room when it becomes empty; the disconnecting
socket then leaves every socket.io room. -/
def disconnectH (st : ServerState) (sockId : String) : ServerState × List Emit :=
  let s? := st.sockets.find? (fun s => s.id = sockId)
  let cleaned : ServerState × List Emit :=
    match s? with
    | none => (st, [])
    | some s =>
      match s.roomIdField with
      | none => (st, [])
      | some r =>
        match mapGetR st.rooms r with
        | none => (st, [])
        | some room =>
          let room' := roomDelete room sockId
          let rooms' := if room'.isEmpty then mapDelR st.rooms r
                        else mapSetR st.rooms r room'
          ({ st with rooms := rooms' }, [Emit.room r sockId (Payload.userLeft sockId)])
  (updSock cleaned.1 sockId (fun s => { s with joined := [], connected := false }),
   cleaned.2)

/-- The `leave-room` handler (lines 354-367): delete the participant,
emit `user-left`, `socket.leave(roomId)`, drop the room when empty.
`socket.roomId` is left as is. -/
def leaveRoomH (st : ServerState) (sockId : String) : ServerState × List Emit :=
  let s? := st.sockets.find? (fun s => s.id = sockId)
  match s? with
  | none => (st, [])
  | some s =>
    match s.roomIdField with
    | none => (st, [])
    | some r =>
      match mapGetR st.rooms r with
      | none => (st, [])
      | some room =>
        let room' := roomDelete room sockId
        let st1 := updSock st sockId (sockLeave r)
        let rooms' := if room'.isEmpty then mapDelR st1.rooms r
                      else mapSetR st1.rooms r room'
        ({ st1 with rooms := rooms' }, [Emit.room r sockId (Payload.userLeft sockId)])

/-- The `toggle-audio` handler (lines 297-310): if the room exists and
the *sender's own* record is in it, flip that record's `audioEnabled`
and broadcast `participant-audio-toggle` keyed by the sender's id. -/
def toggleAudioH (st : ServerState) (sockId roomId : String) (enabled : Bool) :
    ServerState × List Emit :=
  match mapGetR st.rooms roomId with
  | none => (st, [])
  | some room =>
    match roomFind room sockId with
    | none => (st, [])
    | some _ =>
      let room' := room.map (fun q =>
        if q.id = sockId then { q with audioEnabled := enabled } else q)
      ({ st with rooms := mapSetR st.rooms roomId room' },
       [Emit.room roomId sockId (Payload.audioToggle sockId enabled)])

/-- The `toggle-video` handler (lines 312-325), mirror image of
`toggle-audio`. -/
def toggleVideoH (st : ServerState) (sockId roomId : String) (enabled : Bool) :
    ServerState × List Emit :=
  match mapGetR st.rooms roomId with
  | none => (st, [])
  | some room =>
    match roomFind room sockId with
    | none => (st, [])
    | some _ =>
      let room' := room.map (fun q =>
        if q.id = sockId then { q with videoEnabled := enabled } else q)
      ({ st with rooms := mapSetR st.rooms roomId room' },
       [Emit.room roomId sockId (Payload.videoToggle sockId enabled)])

/-- The `chat-message` handler (lines 328-331): relay the client-supplied
message object verbatim to the supplied room, excluding the sender; no
registry lookup, no membership check, no state change. -/
def chatMessageH (st : ServerState) (sockId roomId : String) (m : ChatMsg) :
    ServerState × List Emit :=
  (st, [Emit.room roomId sockId (Payload.chatMessage m)])

/-- Inbound server events. -/
inductive Ev
  | join (sockId roomId userName : String)
  | leave (sockId : String)
  | disc (sockId : String)
  | togAudio (sockId roomId : String) (enabled : Bool)
  | togVideo (sockId roomId : String) (enabled : Bool)
  | chat (sockId roomId : String) (m : ChatMsg)
deriving DecidableEq, Repr

/-- Dispatch one inbound event to its handler. -/
def handle (st : ServerState) : Ev → ServerState × List Emit
  | Ev.join c r n => joinRoom st c r n
  | Ev.leave c => leaveRoomH st c
  | Ev.disc c => disconnectH st c
  | Ev.togAudio c r b => toggleAudioH st c r b
  | Ev.togVideo c r b => toggleVideoH st c r b
  | Ev.chat c r m => chatMessageH st c r m

/-- The state after handling one event. -/
def step (st : ServerState) (e : Ev) : ServerState := (handle st e).1

/-- Run a trace of events. -/
def run (st : ServerState) (tr : List Ev) : ServerState := tr.foldl step st

/-- The server's initial state for a given set of connected sockets:
`rooms` is the empty map, every socket is connected and in no room. -/
def init (ids : List String) : ServerState :=
  { rooms := [],
    sockets := ids.map (fun i =>
      { id := i, userName := none, roomIdField := none, joined := [], connected := true }) }

/-- Expand one emission into per-destination deliveries against the
given socket list: `socket.to(roomId)` reaches every connected member of
the socket.io room other than the sender. -/
def deliver (socks : List Sock) : Emit → List (String × Payload)
  | Emit.direct d p =>
      (socks.filter (fun s => s.connected && s.id = d)).map (fun s => (s.id, p))
  | Emit.room r ex p =>
      (socks.filter (fun s => s.connected && s.id ≠ ex && r ∈ s.joined)).map
        (fun s => (s.id, p))

/-- Expand a handler's emission list into deliveries, in order. -/
def deliverAll (socks : List Sock) (emits : List Emit) : List (String × Payload) :=
  (emits.map (deliver socks)).flatten

/-! ### Join choreography: emission content and ordering -/

/-- The participants of `roomId` other than `sockId`, read off a server
state (the "existing participants" from the joiner's point of view). -/
def othersOf (st : ServerState) (roomId sockId : String) : List Participant :=
  ((mapGetR st.rooms roomId).getD []).filter (fun p => p.id ≠ sockId)

/-- Extract, from an emission list, the payloads of the
`existing-participants` messages sent directly to socket `c`. -/
def existingMsgsTo (c : String) (emits : List Emit) : List (List Participant) :=
  emits.filterMap (fun e =>
    match e with
    | Emit.direct d (Payload.existingParticipants ps) => if d = c then some ps else none
    | _ => none)

/-- Recognize an `existing-participants` emission. -/
def isExistingEmit : Emit → Bool
  | Emit.direct _ (Payload.existingParticipants _) => true
  | _ => false

/-- Recognize a `user-joined` broadcast. -/
def isUserJoinedEmit : Emit → Bool
  | Emit.room _ _ (Payload.userJoined _) => true
  | _ => false

theorem roomSet_filter_ne (room : Room) (p : Participant) (c : String)
    (hp : p.id = c) :
    (roomSet room p).filter (fun q => q.id ≠ c)
      = room.filter (fun q => q.id ≠ c) := by
  induction room with
  | nil => simp [roomSet, hp]
  | cons q qs ih =>
    by_cases h : q.id = p.id
    · simp only [roomSet, if_pos h]
      have hq : q.id = c := h.trans hp
      simp [List.filter_cons, hp, hq]
    · simp only [roomSet, if_neg h, List.filter_cons]
      rw [ih]

theorem mapGetR_append_none {α : Type} (l : List (String × α)) (k : String) (v : α)
    (h : mapGetR l k = none) : mapGetR (l ++ [(k, v)]) k = some v := by
  induction l with
  | nil => simp [mapGetR]
  | cons kv rest ih =>
    simp only [mapGetR] at h ⊢
    by_cases hk : kv.1 = k
    · simp [hk] at h
    · simp only [if_neg hk] at h ⊢
      exact ih h

/-- Normal form of the emission list of `joinRoom`, phrased over the
pre-state: the optional `existing-participants` message to the joiner
followed by the `user-joined` broadcast. -/
theorem joinRoom_snd (st : ServerState) (c r n : String) :
    (joinRoom st c r n).2 =
      (if (othersOf st r c).isEmpty then [] else
        [Emit.direct c (Payload.existingParticipants (othersOf st r c))]) ++
      [Emit.room r c (Payload.userJoined ⟨c, n, true, true⟩)] := by
  have hE : ((roomSet ((mapGetR (if (mapGetR st.rooms r).isSome then st.rooms
        else st.rooms ++ [(r, [])]) r).getD [])
        (⟨c, n, true, true⟩ : Participant)).filter (fun p => p.id ≠ c))
      = othersOf st r c := by
    by_cases h : (mapGetR st.rooms r).isSome
    · rw [if_pos h, roomSet_filter_ne _ _ c rfl]; rfl
    · have hn : mapGetR st.rooms r = none := Option.not_isSome_iff_eq_none.mp h
      rw [if_neg h, mapGetR_append_none st.rooms r [] hn]
      simp only [Option.getD_some]
      rw [roomSet_filter_ne _ _ c rfl]
      unfold othersOf
      rw [hn]
      rfl
  show ((if ((roomSet ((mapGetR (if (mapGetR st.rooms r).isSome then st.rooms
        else st.rooms ++ [(r, [])]) r).getD [])
        (⟨c, n, true, true⟩ : Participant)).filter (fun p => p.id ≠ c)).isEmpty then []
      else [Emit.direct c (Payload.existingParticipants
        ((roomSet ((mapGetR (if (mapGetR st.rooms r).isSome then st.rooms
          else st.rooms ++ [(r, [])]) r).getD [])
          (⟨c, n, true, true⟩ : Participant)).filter (fun p => p.id ≠ c)))])
      ++ [Emit.room r c (Payload.userJoined ⟨c, n, true, true⟩)]) = _
  rw [hE]

/-- C3 core equation: the `existing-participants` messages a join sends
to the joiner are none when the room had no other participants, and
exactly one message listing all of them otherwise. -/
theorem existing_msgs_of_join (st : ServerState) (c r n : String) :
    existingMsgsTo c (joinRoom st c r n).2
      = if (othersOf st r c).isEmpty then [] else [othersOf st r c] := by
  rw [joinRoom_snd]
  by_cases h : (othersOf st r c).isEmpty
  · simp [h, existingMsgsTo, List.filterMap]
  · simp [h, existingMsgsTo, List.filterMap]

/-- C1: in the emission sequence of a `join-room` event, every
`existing-participants` message precedes every `user-joined` broadcast. -/
theorem join_emits_ordering (st : ServerState) (c r n : String) (i j : Nat)
    (ei ej : Emit)
    (hi : (joinRoom st c r n).2[i]? = some ei)
    (hj : (joinRoom st c r n).2[j]? = some ej)
    (hex : isExistingEmit ei = true)
    (huj : isUserJoinedEmit ej = true) :
    i < j := by
  rw [joinRoom_snd] at hi hj
  by_cases h : (othersOf st r c).isEmpty
  · exfalso
    simp only [h, if_true, List.nil_append] at hi
    match i, hi with
    | 0, hi =>
      simp only [List.getElem?_cons_zero, Option.some_inj] at hi
      rw [← hi] at hex
      simp [isExistingEmit] at hex
    | Nat.succ k, hi =>
      simp only [List.getElem?_cons_succ, List.getElem?_nil] at hi
      exact Option.noConfusion hi
  · simp only [h, Bool.false_eq_true, if_false, List.cons_append,
      List.nil_append] at hi hj
    have hi0 : i = 0 := by
      match i, hi with
      | 0, _ => rfl
      | 1, hi =>
        exfalso
        simp only [List.getElem?_cons_succ, List.getElem?_cons_zero,
          Option.some_inj] at hi
        rw [← hi] at hex
        simp [isExistingEmit] at hex
      | Nat.succ (Nat.succ k), hi =>
        exfalso
        simp only [List.getElem?_cons_succ, List.getElem?_nil] at hi
        exact Option.noConfusion hi
    have hj1 : j = 1 := by
      match j, hj with
      | 0, hj =>
        exfalso
        simp only [List.getElem?_cons_zero, Option.some_inj] at hj
        rw [← hj] at huj
        simp [isUserJoinedEmit] at huj
      | 1, _ => rfl
      | Nat.succ (Nat.succ k), hj =>
        exfalso
        simp only [List.getElem?_cons_succ, List.getElem?_nil] at hj
        exact Option.noConfusion hj
    omega

/-- Witness for `join_emits_ordering`: in a room where "s1" is present
and "s2" joins, the `existing-participants` message is at index 0 and
the `user-joined` broadcast at index 1. -/
theorem join_emits_ordering_witness :
    ((joinRoom (step (init ["s1", "s2"]) (Ev.join "s1" "r1" "alice")) "s2" "r1" "bob").2[0]?
      = some (Emit.direct "s2"
          (Payload.existingParticipants [⟨"s1", "alice", true, true⟩])))
    ∧ (0 : Nat) < 1 :=
  ⟨by decide,
   join_emits_ordering (step (init ["s1", "s2"]) (Ev.join "s1" "r1" "alice"))
     "s2" "r1" "bob" 0 1
     (Emit.direct "s2" (Payload.existingParticipants [⟨"s1", "alice", true, true⟩]))
     (Emit.room "r1" "s2" (Payload.userJoined ⟨"s2", "bob", true, true⟩))
     (by decide) (by decide) (by decide) (by decide)⟩

/-- C3 counterexample: a client joining an *empty* room receives no
`existing-participants` message at all (the handler guards the emit with
`existingParticipants.length > 0`), not one listing zero participants. -/
theorem empty_room_join_no_existing_msg :
    othersOf (init ["s1"]) "r1" "s1" = []
    ∧ existingMsgsTo "s1" (joinRoom (init ["s1"]) "s1" "r1" "alice").2 = []
    ∧ existingMsgsTo "s1" (joinRoom (init ["s1"]) "s1" "r1" "alice").2 ≠ [[]] := by
  refine ⟨by decide, by decide, by decide⟩

/-! ### Toggle handlers: frame properties (C5) -/

/-- The participant record of connection `p` in room `r`, read off the
registry. -/
def participantRec (st : ServerState) (r p : String) : Option Participant :=
  (mapGetR st.rooms r).bind (fun room => roomFind room p)

theorem mapGetR_mapSetR_self {α : Type} (l : List (String × α)) (k : String) (v : α) :
    mapGetR (mapSetR l k v) k = some v := by
  induction l with
  | nil => simp [mapSetR, mapGetR]
  | cons kv rest ih =>
    by_cases h : kv.1 = k
    · simp [mapSetR, mapGetR, h]
    · simp [mapSetR, mapGetR, h, ih]

theorem mapGetR_mapSetR_ne {α : Type} (l : List (String × α)) (k k' : String) (v : α)
    (h : k' ≠ k) : mapGetR (mapSetR l k v) k' = mapGetR l k' := by
  have h1 : ¬k = k' := fun hh => h hh.symm
  induction l with
  | nil => simp [mapSetR, mapGetR, h1]
  | cons kv rest ih =>
    by_cases hk : kv.1 = k
    · have h2 : ¬kv.1 = k' := by rw [hk]; exact h1
      simp only [mapSetR, if_pos hk, mapGetR]
      simp [h1, h2]
    · simp only [mapSetR, if_neg hk, mapGetR]
      by_cases hk' : kv.1 = k'
      · simp [hk']
      · simp [hk', ih]

theorem roomFind_eq_some_id (room : Room) (p : String) (q : Participant)
    (h : roomFind room p = some q) : q.id = p := by
  induction room with
  | nil => simp [roomFind] at h
  | cons x xs ih =>
    by_cases hx : x.id = p
    · simp only [roomFind, if_pos hx, Option.some_inj] at h
      rw [← h]; exact hx
    · simp only [roomFind, if_neg hx] at h
      exact ih h

theorem roomFind_map_cond (room : Room) (c : String) (f : Participant → Participant)
    (hid : ∀ q, (f q).id = q.id) (p : String) :
    roomFind (room.map (fun q => if q.id = c then f q else q)) p
      = (roomFind room p).map (fun q => if q.id = c then f q else q) := by
  induction room with
  | nil => simp [roomFind]
  | cons x xs ih =>
    by_cases hx : x.id = p
    · have hmx : (if x.id = c then f x else x).id = p := by
        by_cases hc : x.id = c
        · rw [if_pos hc, hid]; exact hx
        · rw [if_neg hc]; exact hx
      simp only [List.map_cons, roomFind, if_pos hmx, if_pos hx]
      rfl
    · have hmx : ¬(if x.id = c then f x else x).id = p := by
        by_cases hc : x.id = c
        · rw [if_pos hc, hid]; exact hx
        · rw [if_neg hc]; exact hx
      simp only [List.map_cons, roomFind, if_neg hx, if_neg hmx]
      exact ih

/-- Reading a participant `p ≠ c` (or any room other than the named one)
is unaffected by mapping an update keyed on `c` over the named room. -/
theorem participantRec_upd_frame (st : ServerState) (c r : String)
    (room : Room) (hr : mapGetR st.rooms r = some room)
    (f : Participant → Participant) (hid : ∀ q, (f q).id = q.id)
    (r' p : String) (hp : p ≠ c ∨ r' ≠ r) :
    participantRec
        { st with rooms := (mapSetR st.rooms r
            (room.map (fun q => if q.id = c then f q else q))) } r' p
      = participantRec st r' p := by
  unfold participantRec
  by_cases hrr : r' = r
  · subst hrr
    rw [mapGetR_mapSetR_self, hr]
    simp only [Option.some_bind]
    rcases hp with hp | hp
    · rw [roomFind_map_cond room c f hid p]
      cases hq : roomFind room p with
      | none => simp
      | some q =>
        have hqc : ¬q.id = c := by
          rw [roomFind_eq_some_id room p q hq]; exact hp
        simp [hqc]
    · exact absurd rfl hp
  · rw [mapGetR_mapSetR_ne st.rooms r r' _ hrr]

/-- Reading the keyed participant `c` after mapping a `c`-keyed update
over the named room applies exactly the update. -/
theorem participantRec_upd_self (st : ServerState) (c r : String)
    (room : Room) (hr : mapGetR st.rooms r = some room)
    (f : Participant → Participant) (hid : ∀ q, (f q).id = q.id) :
    participantRec
        { st with rooms := (mapSetR st.rooms r
            (room.map (fun q => if q.id = c then f q else q))) } r c
      = (participantRec st r c).map f := by
  unfold participantRec
  rw [mapGetR_mapSetR_self, hr]
  simp only [Option.some_bind]
  rw [roomFind_map_cond room c f hid c]
  cases hq : roomFind room c with
  | none => simp
  | some q =>
    have hqc : q.id = c := roomFind_eq_some_id room c q hq
    simp [hqc]

/-- C5: `toggle-audio` / `toggle-video` mutate only the sender's own
participant record in the named room: every record of a participant
other than the sender (and every record in any other room) is unchanged,
the sender's id, name and the *other* enabled flag are unchanged, and
the socket bookkeeping is untouched.  The handler destructures only
`{ roomId, audioEnabled }` from the payload, so a payload naming another
participant cannot influence which record is mutated. -/
theorem toggle_only_mutates_sender (st : ServerState) (c r : String) (aEn vEn : Bool) :
    (∀ r' p, (p ≠ c ∨ r' ≠ r) →
        participantRec (toggleAudioH st c r aEn).1 r' p = participantRec st r' p
        ∧ participantRec (toggleVideoH st c r vEn).1 r' p = participantRec st r' p)
    ∧ (∀ r', (participantRec (toggleAudioH st c r aEn).1 r' c).map
          (fun q => (q.id, q.name, q.videoEnabled))
        = (participantRec st r' c).map (fun q => (q.id, q.name, q.videoEnabled)))
    ∧ (∀ r', (participantRec (toggleVideoH st c r vEn).1 r' c).map
          (fun q => (q.id, q.name, q.audioEnabled))
        = (participantRec st r' c).map (fun q => (q.id, q.name, q.audioEnabled)))
    ∧ (toggleAudioH st c r aEn).1.sockets = st.sockets
    ∧ (toggleVideoH st c r vEn).1.sockets = st.sockets := by
  have hA1 : ∀ r' p, (p ≠ c ∨ r' ≠ r) →
      participantRec (toggleAudioH st c r aEn).1 r' p = participantRec st r' p := by
    intro r' p hp
    unfold toggleAudioH
    cases hr : mapGetR st.rooms r with
    | none => rfl
    | some room =>
      cases hf : roomFind room c with
      | none => simp [hr, hf]
      | some q =>
        simp only [hr, hf]
        exact participantRec_upd_frame st c r room hr
          (fun q => { q with audioEnabled := aEn }) (fun _ => rfl) r' p hp
  have hV1 : ∀ r' p, (p ≠ c ∨ r' ≠ r) →
      participantRec (toggleVideoH st c r vEn).1 r' p = participantRec st r' p := by
    intro r' p hp
    unfold toggleVideoH
    cases hr : mapGetR st.rooms r with
    | none => rfl
    | some room =>
      cases hf : roomFind room c with
      | none => simp [hr, hf]
      | some q =>
        simp only [hr, hf]
        exact participantRec_upd_frame st c r room hr
          (fun q => { q with videoEnabled := vEn }) (fun _ => rfl) r' p hp
  refine ⟨fun r' p hp => ⟨hA1 r' p hp, hV1 r' p hp⟩, ?_, ?_, ?_, ?_⟩
  · intro r'
    by_cases hrr : r' = r
    · subst hrr
      unfold toggleAudioH
      cases hr : mapGetR st.rooms r' with
      | none => rfl
      | some room =>
        cases hf : roomFind room c with
        | none => simp [hr, hf]
        | some q =>
          simp only [hr, hf]
          rw [participantRec_upd_self st c r' room hr
            (fun q => { q with audioEnabled := aEn }) (fun _ => rfl)]
          cases participantRec st r' c with
          | none => rfl
          | some q' => rfl
    · rw [(hA1 r' c (Or.inr hrr) : _)]
  · intro r'
    by_cases hrr : r' = r
    · subst hrr
      unfold toggleVideoH
      cases hr : mapGetR st.rooms r' with
      | none => rfl
      | some room =>
        cases hf : roomFind room c with
        | none => simp [hr, hf]
        | some q =>
          simp only [hr, hf]
          rw [participantRec_upd_self st c r' room hr
            (fun q => { q with videoEnabled := vEn }) (fun _ => rfl)]
          cases participantRec st r' c with
          | none => rfl
          | some q' => rfl
    · rw [(hV1 r' c (Or.inr hrr) : _)]
  · unfold toggleAudioH
    cases hr : mapGetR st.rooms r with
    | none => rfl
    | some room =>
      cases hf : roomFind room c with
      | none => simp [hf]
      | some q => simp [hf]
  · unfold toggleVideoH
    cases hr : mapGetR st.rooms r with
    | none => rfl
    | some room =>
      cases hf : roomFind room c with
      | none => simp [hf]
      | some q => simp [hf]

/-- Witness for `toggle_only_mutates_sender`: with "s1" and "s2" in room
"r1", "s1" switching its audio off leaves "s2"'s record untouched. -/
theorem toggle_only_mutates_sender_witness :
    participantRec (toggleAudioH
        (run (init ["s1", "s2"]) [Ev.join "s1" "r1" "alice", Ev.join "s2" "r1" "bob"])
        "s1" "r1" false).1 "r1" "s2"
      = participantRec
          (run (init ["s1", "s2"]) [Ev.join "s1" "r1" "alice", Ev.join "s2" "r1" "bob"])
          "r1" "s2" :=
  ((toggle_only_mutates_sender
      (run (init ["s1", "s2"]) [Ev.join "s1" "r1" "alice", Ev.join "s2" "r1" "bob"])
      "s1" "r1" false false).1 "r1" "s2" (Or.inl (by decide))).1

/-! ### Chat relay (C6, C9) -/

/-- The chat message object the client's `sendChatMessage` builds:
`{ id: Date.now().toString(), senderId: 'current-user', senderName:
'You', message, timestamp }`. -/
def sendChatMessage (text : String) (now : Nat) : ChatMsg :=
  ⟨toString now, "current-user", "You", text, now⟩

/-- The per-socket deliveries produced by one `chat-message` event. -/
def chatDeliveries (st : ServerState) (c r : String) (m : ChatMsg) :
    List (String × Payload) :=
  deliverAll (chatMessageH st c r m).1.sockets (chatMessageH st c r m).2

/-- C9: the `chat-message` handler changes no server state and relays
the client-supplied message object verbatim to every connected socket
joined to the client-supplied `roomId` other than the sender — for
*every* state, sender and `roomId`, with no check that the sender has
joined that room or that the room exists in the registry. -/
theorem chat_relay_verbatim_unchecked (st : ServerState) (c r : String) (m : ChatMsg) :
    (chatMessageH st c r m).1 = st
    ∧ chatDeliveries st c r m
      = (st.sockets.filter (fun s => s.connected && s.id ≠ c && r ∈ s.joined)).map
          (fun s => (s.id, Payload.chatMessage m)) := by
  constructor
  · rfl
  · unfold chatDeliveries chatMessageH deliverAll deliver
    simp

/-- Closed instance of the unchecked relay: "s1" never joined any room,
yet its chat message addressed to "r1" is delivered, verbatim with its
client-chosen sender id, to the member "s2" of "r1". -/
theorem chat_relay_unchecked_example :
    chatDeliveries (run (init ["s1", "s2"]) [Ev.join "s2" "r1" "bob"]) "s1" "r1"
        (sendChatMessage "hi" 5)
      = [("s2", Payload.chatMessage (sendChatMessage "hi" 5))]
    ∧ othersOf (run (init ["s1", "s2"]) [Ev.join "s2" "r1" "bob"]) "r1" ""
        = [⟨"s2", "bob", true, true⟩] := by
  refine ⟨by decide, by decide⟩

/-- C6: when `A` sends a chat message into room `r`, every other
connected member `B` of that room receives a `chat-message` event whose
payload is exactly `A`'s message (same text, same sender id), and no
delivery goes back to `A`. -/
theorem chat_delivered_to_members (st : ServerState) (c r : String) (m : ChatMsg)
    (B : Sock) (hB : B ∈ st.sockets) (hconn : B.connected = true)
    (hne : B.id ≠ c) (hjoin : r ∈ B.joined) :
    (B.id, Payload.chatMessage m) ∈ chatDeliveries st c r m
    ∧ ∀ d ∈ chatDeliveries st c r m, d.1 ≠ c ∧ d.2 = Payload.chatMessage m := by
  have heq := (chat_relay_verbatim_unchecked st c r m).2
  rw [heq]
  constructor
  · refine List.mem_map_of_mem (fun s : Sock => (s.id, Payload.chatMessage m)) ?_
    rw [List.mem_filter]
    refine ⟨hB, ?_⟩
    simp [hconn, hne, hjoin]
  · intro d hd
    rw [List.mem_map] at hd
    obtain ⟨s, hs, hds⟩ := hd
    rw [List.mem_filter] at hs
    have hcond := hs.2
    simp only [Bool.and_eq_true, decide_eq_true_eq] at hcond
    refine ⟨?_, by rw [← hds]⟩
    rw [← hds]
    exact hcond.1.2

/-- Witness for `chat_delivered_to_members`: "s1" and "s2" share room
"r1"; "s1"'s message reaches "s2" and is not echoed. -/
theorem chat_delivered_to_members_witness :
    ("s2", Payload.chatMessage (sendChatMessage "hi" 7)) ∈
      chatDeliveries
        (run (init ["s1", "s2"]) [Ev.join "s1" "r1" "alice", Ev.join "s2" "r1" "bob"])
        "s1" "r1" (sendChatMessage "hi" 7) :=
  (chat_delivered_to_members
    (run (init ["s1", "s2"]) [Ev.join "s1" "r1" "alice", Ev.join "s2" "r1" "bob"])
    "s1" "r1" (sendChatMessage "hi" 7)
    ⟨"s2", some "bob", some "r1", ["r1"], true⟩
    (by decide) (by decide) (by decide) (by decide)).1

/-! ### Association-list and room-map lemmas for the registry invariant -/

theorem mapGetR_eq_some_mem {α : Type} {l : List (String × α)} {k : String} {v : α}
    (h : mapGetR l k = some v) : (k, v) ∈ l := by
  induction l with
  | nil => simp [mapGetR] at h
  | cons kv rest ih =>
    obtain ⟨a, b⟩ := kv
    by_cases hk : a = k
    · subst hk
      have hb : b = v := by simpa [mapGetR] using h
      subst hb
      exact List.mem_cons_self _ _
    · simp only [mapGetR, if_neg hk] at h
      exact List.mem_cons_of_mem _ (ih h)

theorem mapGetR_of_mem_nodup {α : Type} {l : List (String × α)}
    (hnd : (l.map Prod.fst).Nodup) {kv : String × α} (h : kv ∈ l) :
    mapGetR l kv.1 = some kv.2 := by
  induction l with
  | nil => simp at h
  | cons a rest ih =>
    rw [List.map_cons, List.nodup_cons] at hnd
    rcases List.mem_cons.mp h with h | h
    · subst h
      simp [mapGetR]
    · have hne : a.1 ≠ kv.1 := by
        intro hh
        exact hnd.1 (hh ▸ List.mem_map_of_mem Prod.fst h)
      simp only [mapGetR, if_neg hne]
      exact ih hnd.2 h

theorem mapGetR_eq_none_iff {α : Type} (l : List (String × α)) (k : String) :
    mapGetR l k = none ↔ k ∉ l.map Prod.fst := by
  induction l with
  | nil => simp [mapGetR]
  | cons a rest ih =>
    by_cases hk : a.1 = k
    · simp [mapGetR, hk]
    · simp only [mapGetR, if_neg hk, List.map_cons, List.mem_cons, ih]
      constructor
      · intro h hh
        rcases hh with hh | hh
        · exact hk hh.symm
        · exact h hh
      · intro h
        exact fun hh => h (Or.inr hh)

theorem keys_mapSetR {α : Type} (l : List (String × α)) (k : String) (v : α) :
    (mapSetR l k v).map Prod.fst
      = if (mapGetR l k).isSome then l.map Prod.fst else l.map Prod.fst ++ [k] := by
  induction l with
  | nil => simp [mapSetR, mapGetR]
  | cons a rest ih =>
    by_cases hk : a.1 = k
    · simp [mapSetR, mapGetR, hk]
    · simp only [mapSetR, if_neg hk, mapGetR, List.map_cons, ih]
      by_cases hs : (mapGetR rest k).isSome
      · simp [hs]
      · simp [hs]

theorem nodup_keys_mapSetR {α : Type} (l : List (String × α)) (k : String) (v : α)
    (h : (l.map Prod.fst).Nodup) : ((mapSetR l k v).map Prod.fst).Nodup := by
  rw [keys_mapSetR]
  by_cases hs : (mapGetR l k).isSome
  · simpa [hs] using h
  · have hnone : mapGetR l k = none := Option.not_isSome_iff_eq_none.mp hs
    have hk : k ∉ l.map Prod.fst := (mapGetR_eq_none_iff l k).mp hnone
    simp only [hs, Bool.false_eq_true, if_false]
    rw [List.nodup_append]
    refine ⟨h, List.nodup_singleton k, ?_⟩
    intro a ha hak
    rw [List.mem_singleton] at hak
    exact hk (hak ▸ ha)

theorem mapGetR_mapDelR_ne {α : Type} (l : List (String × α)) (k k' : String)
    (h : k' ≠ k) : mapGetR (mapDelR l k) k' = mapGetR l k' := by
  induction l with
  | nil => simp [mapDelR]
  | cons a rest ih =>
    by_cases hk : a.1 = k
    · simp only [mapDelR, if_pos hk, mapGetR]
      rw [if_neg (by rw [hk]; exact fun hh => h hh.symm)]
    · simp only [mapDelR, if_neg hk, mapGetR]
      by_cases hk' : a.1 = k'
      · simp [hk']
      · simp [hk', ih]

theorem mapGetR_mapDelR_self {α : Type} (l : List (String × α)) (k : String)
    (hnd : (l.map Prod.fst).Nodup) : mapGetR (mapDelR l k) k = none := by
  induction l with
  | nil => simp [mapDelR, mapGetR]
  | cons a rest ih =>
    rw [List.map_cons, List.nodup_cons] at hnd
    by_cases hk : a.1 = k
    · simp only [mapDelR, if_pos hk]
      rw [mapGetR_eq_none_iff]
      intro hmem
      exact hnd.1 (hk ▸ hmem)
    · simp only [mapDelR, if_neg hk, mapGetR, if_neg hk]
      exact ih hnd.2

theorem mem_mapDelR_sub {α : Type} {l : List (String × α)} {k : String}
    {rp : String × α} (h : rp ∈ mapDelR l k) : rp ∈ l := by
  induction l with
  | nil => simp [mapDelR] at h
  | cons a rest ih =>
    by_cases hk : a.1 = k
    · simp only [mapDelR, if_pos hk] at h
      exact List.mem_cons_of_mem _ h
    · simp only [mapDelR, if_neg hk] at h
      rcases List.mem_cons.mp h with h | h
      · exact h ▸ List.mem_cons_self _ _
      · exact List.mem_cons_of_mem _ (ih h)

theorem keys_mapDelR_sublist {α : Type} (l : List (String × α)) (k : String) :
    ((mapDelR l k).map Prod.fst).Sublist (l.map Prod.fst) := by
  induction l with
  | nil => simp [mapDelR]
  | cons a rest ih =>
    by_cases hk : a.1 = k
    · simp only [mapDelR, if_pos hk, List.map_cons]
      exact List.sublist_cons_of_sublist _ (List.Sublist.refl _)
    · simp only [mapDelR, if_neg hk, List.map_cons]
      exact List.Sublist.cons₂ _ ih

theorem mem_mapSetR {α : Type} {l : List (String × α)} {k : String} {v : α}
    {rp : String × α} (h : rp ∈ mapSetR l k v) : rp = (k, v) ∨ rp ∈ l := by
  induction l with
  | nil => simpa [mapSetR] using h
  | cons a rest ih =>
    by_cases hk : a.1 = k
    · simp only [mapSetR, if_pos hk] at h
      rcases List.mem_cons.mp h with h | h
      · exact Or.inl h
      · exact Or.inr (List.mem_cons_of_mem _ h)
    · simp only [mapSetR, if_neg hk] at h
      rcases List.mem_cons.mp h with h | h
      · exact Or.inr (h ▸ List.mem_cons_self _ _)
      · rcases ih h with h | h
        · exact Or.inl h
        · exact Or.inr (List.mem_cons_of_mem _ h)

theorem roomFind_mem {room : Room} {c : String} {q : Participant}
    (h : roomFind room c = some q) : q ∈ room := by
  induction room with
  | nil => simp [roomFind] at h
  | cons x xs ih =>
    by_cases hx : x.id = c
    · simp only [roomFind, if_pos hx, Option.some_inj] at h
      exact h ▸ List.mem_cons_self _ _
    · simp only [roomFind, if_neg hx] at h
      exact List.mem_cons_of_mem _ (ih h)

theorem roomFind_roomSet_self (room : Room) (p : Participant) :
    roomFind (roomSet room p) p.id = some p := by
  induction room with
  | nil => simp [roomSet, roomFind]
  | cons x xs ih =>
    by_cases hx : x.id = p.id
    · simp [roomSet, roomFind, hx]
    · simp [roomSet, roomFind, hx, ih]

theorem roomFind_roomSet_ne (room : Room) (p : Participant) (c : String)
    (h : c ≠ p.id) : roomFind (roomSet room p) c = roomFind room c := by
  have h1 : ¬p.id = c := fun hh => h hh.symm
  induction room with
  | nil => simp [roomSet, roomFind, h1]
  | cons x xs ih =>
    by_cases hx : x.id = p.id
    · have h2 : ¬x.id = c := by rw [hx]; exact h1
      simp [roomSet, roomFind, hx, h1, h2]
    · simp only [roomSet, if_neg hx, roomFind]
      by_cases hc : x.id = c
      · simp [hc]
      · simp [hc, ih]

theorem roomFind_eq_none_iff (room : Room) (c : String) :
    roomFind room c = none ↔ c ∉ room.map Participant.id := by
  induction room with
  | nil => simp [roomFind]
  | cons x xs ih =>
    by_cases hx : x.id = c
    · simp [roomFind, hx]
    · simp only [roomFind, if_neg hx, List.map_cons, List.mem_cons, ih]
      constructor
      · intro h hh
        rcases hh with hh | hh
        · exact hx hh.symm
        · exact h hh
      · intro h
        exact fun hh => h (Or.inr hh)

theorem roomFind_of_mem_nodup {room : Room}
    (hnd : (room.map Participant.id).Nodup) {q : Participant} (h : q ∈ room) :
    roomFind room q.id = some q := by
  induction room with
  | nil => simp at h
  | cons x xs ih =>
    rw [List.map_cons, List.nodup_cons] at hnd
    rcases List.mem_cons.mp h with h | h
    · subst h
      simp [roomFind]
    · have hne : x.id ≠ q.id := by
        intro hh
        exact hnd.1 (hh ▸ List.mem_map_of_mem Participant.id h)
      simp only [roomFind, if_neg hne]
      exact ih hnd.2 h

theorem ids_roomSet (room : Room) (p : Participant) :
    (roomSet room p).map Participant.id
      = if (roomFind room p.id).isSome then room.map Participant.id
        else room.map Participant.id ++ [p.id] := by
  induction room with
  | nil => simp [roomSet, roomFind]
  | cons x xs ih =>
    by_cases hx : x.id = p.id
    · simp [roomSet, roomFind, hx]
    · simp only [roomSet, if_neg hx, roomFind, List.map_cons, ih]
      by_cases hs : (roomFind xs p.id).isSome
      · simp [hs]
      · simp [hs]

theorem nodup_ids_roomSet (room : Room) (p : Participant)
    (h : (room.map Participant.id).Nodup) :
    ((roomSet room p).map Participant.id).Nodup := by
  rw [ids_roomSet]
  by_cases hs : (roomFind room p.id).isSome
  · simpa [hs] using h
  · have hnone : roomFind room p.id = none := Option.not_isSome_iff_eq_none.mp hs
    have hk : p.id ∉ room.map Participant.id := (roomFind_eq_none_iff room p.id).mp hnone
    simp only [hs, Bool.false_eq_true, if_false]
    rw [List.nodup_append]
    refine ⟨h, List.nodup_singleton p.id, ?_⟩
    intro a ha hak
    rw [List.mem_singleton] at hak
    exact hk (hak ▸ ha)

theorem roomFind_roomDelete_ne (room : Room) (c p : String) (h : p ≠ c) :
    roomFind (roomDelete room c) p = roomFind room p := by
  induction room with
  | nil => simp [roomDelete]
  | cons x xs ih =>
    by_cases hx : x.id = c
    · simp only [roomDelete, if_pos hx, roomFind]
      rw [if_neg (by rw [hx]; exact fun hh => h hh.symm)]
    · simp only [roomDelete, if_neg hx, roomFind]
      by_cases hp : x.id = p
      · simp [hp]
      · simp [hp, ih]

theorem roomFind_roomDelete_self (room : Room) (c : String)
    (hnd : (room.map Participant.id).Nodup) :
    roomFind (roomDelete room c) c = none := by
  induction room with
  | nil => simp [roomDelete, roomFind]
  | cons x xs ih =>
    rw [List.map_cons, List.nodup_cons] at hnd
    by_cases hx : x.id = c
    · simp only [roomDelete, if_pos hx]
      rw [roomFind_eq_none_iff]
      intro hmem
      exact hnd.1 (hx ▸ hmem)
    · simp only [roomDelete, if_neg hx, roomFind, if_neg hx]
      exact ih hnd.2

theorem mem_roomDelete_sub {room : Room} {c : String} {q : Participant}
    (h : q ∈ roomDelete room c) : q ∈ room := by
  induction room with
  | nil => simp [roomDelete] at h
  | cons x xs ih =>
    by_cases hx : x.id = c
    · simp only [roomDelete, if_pos hx] at h
      exact List.mem_cons_of_mem _ h
    · simp only [roomDelete, if_neg hx] at h
      rcases List.mem_cons.mp h with h | h
      · exact h ▸ List.mem_cons_self _ _
      · exact List.mem_cons_of_mem _ (ih h)

theorem ids_roomDelete_sublist (room : Room) (c : String) :
    ((roomDelete room c).map Participant.id).Sublist (room.map Participant.id) := by
  induction room with
  | nil => simp [roomDelete]
  | cons x xs ih =>
    by_cases hx : x.id = c
    · simp only [roomDelete, if_pos hx, List.map_cons]
      exact List.sublist_cons_of_sublist _ (List.Sublist.refl _)
    · simp only [roomDelete, if_neg hx, List.map_cons]
      exact List.Sublist.cons₂ _ ih

theorem mem_roomSet {room : Room} {p q : Participant}
    (h : q ∈ roomSet room p) : q = p ∨ q ∈ room := by
  induction room with
  | nil => simpa [roomSet] using h
  | cons x xs ih =>
    by_cases hx : x.id = p.id
    · simp only [roomSet, if_pos hx] at h
      rcases List.mem_cons.mp h with h | h
      · exact Or.inl h
      · exact Or.inr (List.mem_cons_of_mem _ h)
    · simp only [roomSet, if_neg hx] at h
      rcases List.mem_cons.mp h with h | h
      · exact Or.inr (h ▸ List.mem_cons_self _ _)
      · rcases ih h with h | h
        · exact Or.inl h
        · exact Or.inr (List.mem_cons_of_mem _ h)

theorem mem_iff_mapGetR {α : Type} {l : List (String × α)}
    (hnd : (l.map Prod.fst).Nodup) (rp : String × α) :
    rp ∈ l ↔ mapGetR l rp.1 = some rp.2 :=
  ⟨mapGetR_of_mem_nodup hnd, mapGetR_eq_some_mem⟩

theorem mem_iff_roomFind {room : Room}
    (hnd : (room.map Participant.id).Nodup) (q : Participant) :
    q ∈ room ↔ roomFind room q.id = some q :=
  ⟨roomFind_of_mem_nodup hnd, roomFind_mem⟩

theorem mem_roomSet_self (room : Room) (p : Participant) : p ∈ roomSet room p :=
  roomFind_mem (roomFind_roomSet_self room p)

theorem mem_roomSet_of_mem_ne {room : Room} {q : Participant} (p : Participant)
    (h : q ∈ room) (hne : q.id ≠ p.id) : q ∈ roomSet room p := by
  induction room with
  | nil => simp at h
  | cons x xs ih =>
    by_cases hx : x.id = p.id
    · simp only [roomSet, if_pos hx]
      rcases List.mem_cons.mp h with h | h
      · exact absurd (h ▸ hx) hne
      · exact List.mem_cons_of_mem _ h
    · simp only [roomSet, if_neg hx]
      rcases List.mem_cons.mp h with h | h
      · exact h ▸ List.mem_cons_self _ _
      · exact List.mem_cons_of_mem _ (ih h)

theorem mem_roomDelete_of_mem_ne {room : Room} {q : Participant} (c : String)
    (h : q ∈ room) (hne : q.id ≠ c) : q ∈ roomDelete room c := by
  induction room with
  | nil => simp at h
  | cons x xs ih =>
    by_cases hx : x.id = c
    · simp only [roomDelete, if_pos hx]
      rcases List.mem_cons.mp h with h | h
      · exact absurd (h ▸ hx) hne
      · exact h
    · simp only [roomDelete, if_neg hx]
      rcases List.mem_cons.mp h with h | h
      · exact h ▸ List.mem_cons_self _ _
      · exact List.mem_cons_of_mem _ (ih h)

theorem roomSet_ne_nil (room : Room) (p : Participant) : roomSet room p ≠ [] := by
  cases room with
  | nil => simp [roomSet]
  | cons x xs =>
    by_cases hx : x.id = p.id <;> simp [roomSet, hx]

theorem mapGetR_append_single_ne {α : Type} (l : List (String × α))
    (r k : String) (v : α) (h : k ≠ r) :
    mapGetR (l ++ [(r, v)]) k = mapGetR l k := by
  have h1 : ¬r = k := fun hh => h hh.symm
  induction l with
  | nil => simp [mapGetR, h1]
  | cons a rest ih =>
    by_cases ha : a.1 = k
    · simp [mapGetR, ha]
    · simp [mapGetR, ha, ih]

theorem mem_sockJoin_self (r : String) (s : Sock) : r ∈ (sockJoin r s).joined := by
  unfold sockJoin
  by_cases h : r ∈ s.joined
  · simp only [if_pos h]
    exact h
  · simp [h]

theorem mem_sockJoin_of_mem (r r' : String) (s : Sock) (h : r' ∈ s.joined) :
    r' ∈ (sockJoin r s).joined := by
  unfold sockJoin
  by_cases hr : r ∈ s.joined
  · simpa [hr] using h
  · simp only [if_neg hr]
    exact List.mem_append_left _ h

theorem mem_sockJoin_elim {r r' : String} {s : Sock}
    (h : r' ∈ (sockJoin r s).joined) : r' ∈ s.joined ∨ r' = r := by
  unfold sockJoin at h
  by_cases hr : r ∈ s.joined
  · rw [if_pos hr] at h
    exact Or.inl h
  · rw [if_neg hr] at h
    rcases List.mem_append.mp h with h | h
    · exact Or.inl h
    · exact Or.inr (List.mem_singleton.mp h)

/-! ### The registry invariant (C2) -/

/-- Connection `c` is currently joined (in the socket.io sense) to room
`r`: some connected socket with that id has `r` among its rooms. -/
@[reducible] def joinedTo (st : ServerState) (r c : String) : Prop :=
  ∃ s ∈ st.sockets, s.id = c ∧ s.connected = true ∧ r ∈ s.joined

/-- The claim's property: every registered room is non-empty (an empty
room is removed) and its participant set coincides, in both directions,
with the set of connections currently joined to it. -/
@[reducible] def RegistryMatches (st : ServerState) : Prop :=
  (∀ rp ∈ st.rooms, rp.2 ≠ [] ∧ ∀ p ∈ rp.2, joinedTo st rp.1 p.id)
  ∧ (∀ s ∈ st.sockets, s.connected = true → ∀ r ∈ s.joined,
      ∃ rp ∈ st.rooms, rp.1 = r ∧ ∃ p ∈ rp.2, p.id = s.id)

/-- The inductive strengthening of `RegistryMatches`. -/
def Inv (st : ServerState) : Prop :=
  RegistryMatches st
  ∧ (st.sockets.map Sock.id).Nodup
  ∧ (st.rooms.map Prod.fst).Nodup
  ∧ (∀ rp ∈ st.rooms, (rp.2.map Participant.id).Nodup)
  ∧ (∀ s ∈ st.sockets, ∀ r ∈ s.joined, s.roomIdField = some r)
  ∧ (∀ s ∈ st.sockets, s.connected = false → s.joined = [])

/-- Admissible events: events come from live connected sockets, and — the
one discipline the claim needs — a connection does not send `join-room`
for a second room while still joined to another. -/
def okEvB (st : ServerState) : Ev → Bool
  | Ev.join c r _ =>
      st.sockets.any (fun s =>
        s.id = c && s.connected && s.joined.all (fun r' => r' = r))
  | Ev.leave c => st.sockets.any (fun s => s.id = c && s.connected)
  | Ev.disc c => st.sockets.any (fun s => s.id = c && s.connected)
  | Ev.togAudio _ _ _ => true
  | Ev.togVideo _ _ _ => true
  | Ev.chat _ _ _ => true

/-- A trace is admissible when each event is admissible in the state it
is handled in. -/
def okTraceB : ServerState → List Ev → Bool
  | _, [] => true
  | st, e :: tr => okEvB st e && okTraceB (step st e) tr

theorem sockJoin_id (r : String) (s : Sock) : (sockJoin r s).id = s.id := by
  unfold sockJoin
  split <;> rfl

theorem sockJoin_connected (r : String) (s : Sock) :
    (sockJoin r s).connected = s.connected := by
  unfold sockJoin
  split <;> rfl

/-- The four facts about the room list after the lazy-initialization step
of `joinRoom` (`rooms1` in the handler). -/
theorem joinR1_facts (st : ServerState) (r : String)
    (hknd : (st.rooms.map Prod.fst).Nodup) :
    mapGetR (if (mapGetR st.rooms r).isSome then st.rooms else st.rooms ++ [(r, [])]) r
      = some ((mapGetR (if (mapGetR st.rooms r).isSome then st.rooms
          else st.rooms ++ [(r, [])]) r).getD [])
    ∧ (∀ k, k ≠ r → mapGetR (if (mapGetR st.rooms r).isSome then st.rooms
          else st.rooms ++ [(r, [])]) k = mapGetR st.rooms k)
    ∧ (((if (mapGetR st.rooms r).isSome then st.rooms
          else st.rooms ++ [(r, [])]).map Prod.fst).Nodup)
    ∧ ((mapGetR (if (mapGetR st.rooms r).isSome then st.rooms
          else st.rooms ++ [(r, [])]) r).getD [] = []
        ∨ (r, (mapGetR (if (mapGetR st.rooms r).isSome then st.rooms
            else st.rooms ++ [(r, [])]) r).getD []) ∈ st.rooms)
    ∧ (∀ w, mapGetR st.rooms r = some w →
        (mapGetR (if (mapGetR st.rooms r).isSome then st.rooms
          else st.rooms ++ [(r, [])]) r).getD [] = w) := by
  by_cases hc : (mapGetR st.rooms r).isSome
  · obtain ⟨w, hw⟩ := Option.isSome_iff_exists.mp hc
    rw [if_pos hc]
    refine ⟨by simp [hw], fun k _ => rfl, hknd, ?_, ?_⟩
    · right
      rw [hw]
      exact mapGetR_eq_some_mem hw
    · intro w' hw'
      simp [hw']
  · have hnone : mapGetR st.rooms r = none := Option.not_isSome_iff_eq_none.mp hc
    rw [if_neg hc]
    have happ : mapGetR (st.rooms ++ [(r, [])]) r = some [] :=
      mapGetR_append_none st.rooms r [] hnone
    refine ⟨by simp [happ], fun k hk => mapGetR_append_single_ne st.rooms r k [] hk,
      ?_, ?_, ?_⟩
    · rw [List.map_append]
      rw [List.nodup_append]
      refine ⟨hknd, by simp, ?_⟩
      intro a ha hak
      simp only [List.map_cons, List.map_nil, List.mem_singleton] at hak
      exact (mapGetR_eq_none_iff st.rooms r).mp hnone (hak ▸ ha)
    · left
      rw [happ]
      rfl
    · intro w' hw'
      rw [hnone] at hw'
      exact Option.noConfusion hw'

/-- `Inv` is preserved by an admissible `join-room` event. -/
theorem inv_step_join (st : ServerState) (c r n : String)
    (hInv : Inv st) (hok : okEvB st (Ev.join c r n) = true) :
    Inv (step st (Ev.join c r n)) := by
  obtain ⟨⟨hreg1, hreg2⟩, hsnd, hknd, hrnd, hrf, hdj⟩ := hInv
  have hok' : ∃ s ∈ st.sockets, (s.id = c ∧ s.connected = true)
      ∧ ∀ r' ∈ s.joined, r' = r := by
    simpa [okEvB, List.any_eq_true, List.all_eq_true, Bool.and_eq_true,
      decide_eq_true_eq] using hok
  obtain ⟨s0, hs0mem, ⟨hs0id, hs0conn⟩, hs0j⟩ := hok'
  have hstep : step st (Ev.join c r n)
      = { rooms := mapSetR
            (if (mapGetR st.rooms r).isSome then st.rooms else st.rooms ++ [(r, [])]) r
            (roomSet ((mapGetR (if (mapGetR st.rooms r).isSome then st.rooms
                else st.rooms ++ [(r, [])]) r).getD [])
              ⟨c, n, true, true⟩),
          sockets := st.sockets.map (fun s => if s.id = c then
            { sockJoin r s with userName := some n, roomIdField := some r } else s) } := rfl
  obtain ⟨hF1, hF2, hF3, hF5, hF8⟩ := joinR1_facts st r hknd
  rw [hstep]
  set R1 := (if (mapGetR st.rooms r).isSome then st.rooms else st.rooms ++ [(r, [])])
    with hR1def
  set room := (mapGetR R1 r).getD [] with hroomdef
  set newP : Participant := ⟨c, n, true, true⟩ with hnewPdef
  set g : Sock → Sock := (fun s => if s.id = c then
    { sockJoin r s with userName := some n, roomIdField := some r } else s) with hgdef
  have hgid : ∀ s, (g s).id = s.id := by
    intro s
    by_cases h : s.id = c
    · rw [hgdef]
      simp only [if_pos h]
      exact sockJoin_id r s
    · rw [hgdef]
      simp only [if_neg h]
  have hgconn : ∀ s, (g s).connected = s.connected := by
    intro s
    by_cases h : s.id = c
    · rw [hgdef]
      simp only [if_pos h]
      exact sockJoin_connected r s
    · rw [hgdef]
      simp only [if_neg h]
  have hF6 : (room.map Participant.id).Nodup := by
    rcases hF5 with h | h
    · rw [h]
      simp
    · exact hrnd (r, room) h
  have hknd' : ((mapSetR R1 r (roomSet room newP)).map Prod.fst).Nodup :=
    nodup_keys_mapSetR R1 r _ hF3
  have hmemrooms : ∀ rp : String × Room, rp ∈ mapSetR R1 r (roomSet room newP) →
      (rp.1 = r ∧ rp.2 = roomSet room newP) ∨ (rp.1 ≠ r ∧ rp ∈ st.rooms) := by
    intro rp hrp
    have hget := mapGetR_of_mem_nodup hknd' hrp
    by_cases hk : rp.1 = r
    · left
      refine ⟨hk, ?_⟩
      rw [hk, mapGetR_mapSetR_self] at hget
      exact (Option.some_inj.mp hget).symm
    · right
      refine ⟨hk, ?_⟩
      rw [mapGetR_mapSetR_ne _ _ _ _ hk, hF2 rp.1 hk] at hget
      exact mapGetR_eq_some_mem hget
  have hrmem : (r, roomSet room newP) ∈ mapSetR R1 r (roomSet room newP) :=
    mapGetR_eq_some_mem (mapGetR_mapSetR_self _ _ _)
  have hlift_room : ∀ rp : String × Room, rp ∈ st.rooms → rp.1 ≠ r →
      rp ∈ mapSetR R1 r (roomSet room newP) := by
    intro rp hrp hne
    apply mapGetR_eq_some_mem
    rw [mapGetR_mapSetR_ne _ _ _ _ hne, hF2 rp.1 hne]
    exact mapGetR_of_mem_nodup hknd hrp
  have hlift : ∀ r'' cid, joinedTo st r'' cid →
      joinedTo { rooms := (mapSetR R1 r (roomSet room newP)),
                 sockets := (st.sockets.map g) } r'' cid := by
    rintro r'' cid ⟨s, hsmem, hsid, hsconn, hsj⟩
    refine ⟨g s, List.mem_map_of_mem g hsmem, ?_, ?_, ?_⟩
    · rw [hgid]
      exact hsid
    · rw [hgconn]
      exact hsconn
    · by_cases h : s.id = c
      · rw [hgdef]
        simp only [if_pos h]
        exact mem_sockJoin_of_mem r r'' s hsj
      · rw [hgdef]
        simp only [if_neg h]
        exact hsj
  have hjoinNew : joinedTo { rooms := (mapSetR R1 r (roomSet room newP)),
                             sockets := (st.sockets.map g) } r c := by
    refine ⟨g s0, List.mem_map_of_mem g hs0mem, ?_, ?_, ?_⟩
    · rw [hgid]
      exact hs0id
    · rw [hgconn]
      exact hs0conn
    · rw [hgdef]
      simp only [if_pos hs0id]
      exact mem_sockJoin_self r s0
  refine ⟨⟨?_, ?_⟩, ?_, ?_, ?_, ?_, ?_⟩
  · -- registered rooms are non-empty and contained in the joined sets
    intro rp hrp
    rcases hmemrooms rp hrp with ⟨hk, hv⟩ | ⟨hk, hmem⟩
    · constructor
      · rw [hv]
        exact roomSet_ne_nil room newP
      · intro p hp
        rw [hv] at hp
        rcases mem_roomSet hp with hpP | hpR
        · rw [hk, hpP]
          exact hjoinNew
        · rcases hF5 with h5 | h5
          · rw [h5] at hpR
            simp at hpR
          · have hj := (hreg1 (r, room) h5).2 p hpR
            rw [hk]
            exact hlift r p.id hj
    · have hold := hreg1 rp hmem
      exact ⟨hold.1, fun p hp => hlift rp.1 p.id (hold.2 p hp)⟩
  · -- joined sets are reflected in the registry
    intro s' hs' hconn' r' hr'
    obtain ⟨s, hsmem, hseq⟩ := List.mem_map.mp hs'
    by_cases hc : s.id = c
    · have hss0 : s = s0 :=
        List.inj_on_of_nodup_map hsnd hsmem hs0mem (by rw [hc, hs0id])
      have hgs : g s = { sockJoin r s with userName := some n, roomIdField := some r } := by
        rw [hgdef]
        simp [hc]
      have hr'' : r' = r := by
        have hj : r' ∈ (sockJoin r s).joined := by
          rw [← hseq, hgs] at hr'
          exact hr'
        rcases mem_sockJoin_elim hj with h | h
        · rw [hss0] at h
          exact hs0j r' h
        · exact h
      refine ⟨(r, roomSet room newP), hrmem, hr''.symm, newP, mem_roomSet_self _ _, ?_⟩
      rw [hnewPdef]
      show c = s'.id
      rw [← hseq, hgid, hc]
    · have hgs : g s = s := by
        rw [hgdef]
        simp [hc]
      rw [← hseq, hgs] at hconn' hr' ⊢
      obtain ⟨rp, hrpmem, hrp1, p, hpmem, hpid⟩ := hreg2 s hsmem hconn' r' hr'
      by_cases hr'' : rp.1 = r
      · have hw : mapGetR st.rooms r = some rp.2 := by
          rw [← hr'']
          exact mapGetR_of_mem_nodup hknd hrpmem
        have hroomeq : room = rp.2 := hF8 rp.2 hw
        refine ⟨(r, roomSet room newP), hrmem, by rw [← hr'']; exact hrp1,
          p, mem_roomSet_of_mem_ne newP (by rw [hroomeq]; exact hpmem) ?_, hpid⟩
        rw [hpid, hnewPdef]
        exact hc
      · exact ⟨rp, hlift_room rp hrpmem hr'', hrp1, p, hpmem, hpid⟩
  · -- socket ids stay distinct
    show ((st.sockets.map g).map Sock.id).Nodup
    rw [List.map_map]
    have hmc : st.sockets.map (Sock.id ∘ g) = st.sockets.map Sock.id :=
      List.map_congr_left (fun s _ => hgid s)
    rw [hmc]
    exact hsnd
  · exact hknd'
  · -- per-room participant ids stay distinct
    intro rp hrp
    rcases hmemrooms rp hrp with ⟨_, hv⟩ | ⟨_, hmem⟩
    · rw [hv]
      exact nodup_ids_roomSet room newP hF6
    · exact hrnd rp hmem
  · -- joined rooms always agree with socket.roomId
    intro s' hs' r' hr'
    obtain ⟨s, hsmem, hseq⟩ := List.mem_map.mp hs'
    by_cases hc : s.id = c
    · have hss0 : s = s0 :=
        List.inj_on_of_nodup_map hsnd hsmem hs0mem (by rw [hc, hs0id])
      have hgs : g s = { sockJoin r s with userName := some n, roomIdField := some r } := by
        rw [hgdef]
        simp [hc]
      have hr'' : r' = r := by
        have hj : r' ∈ (sockJoin r s).joined := by
          rw [← hseq, hgs] at hr'
          exact hr'
        rcases mem_sockJoin_elim hj with h | h
        · rw [hss0] at h
          exact hs0j r' h
        · exact h
      rw [← hseq, hgs, hr'']
    · have hgs : g s = s := by
        rw [hgdef]
        simp [hc]
      rw [← hseq, hgs] at hr' ⊢
      exact hrf s hsmem r' hr'
  · -- disconnected sockets are in no room
    intro s' hs' hdisc
    obtain ⟨s, hsmem, hseq⟩ := List.mem_map.mp hs'
    by_cases hc : s.id = c
    · have hss0 : s = s0 :=
        List.inj_on_of_nodup_map hsnd hsmem hs0mem (by rw [hc, hs0id])
      rw [← hseq, hgconn, hss0, hs0conn] at hdisc
      exact Bool.noConfusion hdisc
    · have hgs : g s = s := by
        rw [hgdef]
        simp [hc]
      rw [← hseq, hgs] at hdisc ⊢
      exact hdj s hsmem hdisc

theorem sockLeave_id (r : String) (s : Sock) : (sockLeave r s).id = s.id := rfl

theorem roomFind_eq_some_of_get {st : ServerState} {r : String} {room : Room}
    (hget : mapGetR st.rooms r = some room)
    (hknd : (st.rooms.map Prod.fst).Nodup)
    {rp : String × Room} (hrp : rp ∈ st.rooms) (hr1 : rp.1 = r) : rp.2 = room := by
  have hw := mapGetR_of_mem_nodup hknd hrp
  rw [hr1, hget] at hw
  exact (Option.some_inj.mp hw).symm

/-- `Inv` is preserved by a `leave-room` event, for any socket state. -/
theorem inv_step_leave (st : ServerState) (c : String) (hInv : Inv st) :
    Inv (step st (Ev.leave c)) := by
  obtain ⟨⟨hreg1, hreg2⟩, hsnd, hknd, hrnd, hrf, hdj⟩ := hInv
  show Inv (leaveRoomH st c).1
  cases hfind : st.sockets.find? (fun s => s.id = c) with
  | none =>
    have hshape : (leaveRoomH st c).1 = st := by
      simp only [leaveRoomH, hfind]
    rw [hshape]
    exact ⟨⟨hreg1, hreg2⟩, hsnd, hknd, hrnd, hrf, hdj⟩
  | some s =>
    have hsmem : s ∈ st.sockets := List.mem_of_find?_eq_some hfind
    have hsid : s.id = c := by
      have := List.find?_some hfind
      simpa using this
    cases hrid : s.roomIdField with
    | none =>
      have hshape : (leaveRoomH st c).1 = st := by
        simp only [leaveRoomH, hfind, hrid]
      rw [hshape]
      exact ⟨⟨hreg1, hreg2⟩, hsnd, hknd, hrnd, hrf, hdj⟩
    | some r =>
      cases hroomget : mapGetR st.rooms r with
      | none =>
        have hshape : (leaveRoomH st c).1 = st := by
          simp only [leaveRoomH, hfind, hrid, hroomget]
        rw [hshape]
        exact ⟨⟨hreg1, hreg2⟩, hsnd, hknd, hrnd, hrf, hdj⟩
      | some room =>
        have hshape : (leaveRoomH st c).1
            = { rooms := (if (roomDelete room c).isEmpty
                  then mapDelR st.rooms r
                  else mapSetR st.rooms r (roomDelete room c)),
                sockets := (st.sockets.map (fun s' =>
                  if s'.id = c then sockLeave r s' else s')) } := by
          simp only [leaveRoomH, hfind, hrid, hroomget, updSock]
        rw [hshape]
        -- shared facts
        have hjsub : ∀ r' ∈ s.joined, r' = r := by
          intro r' hr'
          have := hrf s hsmem r' hr'
          rw [hrid] at this
          exact Option.some_inj.mp this.symm
        have hrmemst : (r, room) ∈ st.rooms := mapGetR_eq_some_mem hroomget
        have hroomnd : (room.map Participant.id).Nodup := hrnd (r, room) hrmemst
        have hroom'nd : ((roomDelete room c).map Participant.id).Nodup :=
          (ids_roomDelete_sublist room c).nodup hroomnd
        have hconly : ∀ rp ∈ st.rooms, ∀ p ∈ rp.2, p.id = c → rp.1 = r := by
          intro rp hrp p hp hpc
          obtain ⟨s'', hs''mem, hs''id, _, hs''j⟩ := (hreg1 rp hrp).2 p hp
          have hss : s'' = s :=
            List.inj_on_of_nodup_map hsnd hs''mem hsmem (by rw [hs''id, hpc, hsid])
          rw [hss] at hs''j
          exact hjsub rp.1 hs''j
        have hpow : ∀ p ∈ roomDelete room c, p ∈ room ∧ p.id ≠ c := by
          intro p hp
          refine ⟨mem_roomDelete_sub hp, ?_⟩
          intro hpc
          have hfound := roomFind_of_mem_nodup hroom'nd hp
          rw [hpc, roomFind_roomDelete_self room c hroomnd] at hfound
          exact Option.noConfusion hfound
        set g : Sock → Sock := (fun s' => if s'.id = c then sockLeave r s' else s')
          with hgdef
        set rooms2 : List (String × Room) := (if (roomDelete room c).isEmpty
          then mapDelR st.rooms r else mapSetR st.rooms r (roomDelete room c))
          with hrooms2def
        have hgid : ∀ s', (g s').id = s'.id := by
          intro s'
          by_cases h : s'.id = c
          · rw [hgdef]
            simp only [if_pos h]
            rfl
          · rw [hgdef]
            simp only [if_neg h]
        have hgne : ∀ s', s'.id ≠ c → g s' = s' := by
          intro s' h
          rw [hgdef]
          simp [h]
        have hlift : ∀ r'' cid, cid ≠ c → joinedTo st r'' cid →
            joinedTo { rooms := rooms2, sockets := (st.sockets.map g) } r'' cid := by
          rintro r'' cid hne ⟨s'', hs''mem, hs''id, hs''conn, hs''j⟩
          have : g s'' = s'' := hgne s'' (by rw [hs''id]; exact hne)
          exact ⟨g s'', List.mem_map_of_mem g hs''mem, by rw [this]; exact hs''id,
            by rw [this]; exact hs''conn, by rw [this]; exact hs''j⟩
        -- membership characterization of the new room list
        have hknd' : (rooms2.map Prod.fst).Nodup := by
          rw [hrooms2def]
          by_cases hE : (roomDelete room c).isEmpty
          · simp only [hE, if_true]
            exact (keys_mapDelR_sublist st.rooms r).nodup hknd
          · simp only [hE, Bool.false_eq_true, if_false]
            exact nodup_keys_mapSetR st.rooms r _ hknd
        have hmemrooms : ∀ rp : String × Room, rp ∈ rooms2 →
            (rp.1 = r ∧ rp.2 = roomDelete room c ∧ (roomDelete room c).isEmpty = false)
              ∨ (rp.1 ≠ r ∧ rp ∈ st.rooms) := by
          intro rp hrp
          rw [hrooms2def] at hrp
          by_cases hE : (roomDelete room c).isEmpty
          · simp only [hE, if_true] at hrp
            right
            refine ⟨?_, mem_mapDelR_sub hrp⟩
            intro hk
            have hget := mapGetR_of_mem_nodup
              ((keys_mapDelR_sublist st.rooms r).nodup hknd) hrp
            rw [hk, mapGetR_mapDelR_self st.rooms r hknd] at hget
            exact Option.noConfusion hget
          · simp only [hE, Bool.false_eq_true, if_false] at hrp
            have hget := mapGetR_of_mem_nodup (nodup_keys_mapSetR st.rooms r _ hknd) hrp
            by_cases hk : rp.1 = r
            · left
              rw [hk, mapGetR_mapSetR_self] at hget
              exact ⟨hk, (Option.some_inj.mp hget).symm, Bool.eq_false_iff.mpr hE⟩
            · right
              rw [mapGetR_mapSetR_ne _ _ _ _ hk] at hget
              exact ⟨hk, mapGetR_eq_some_mem hget⟩
        have hlift_room : ∀ rp : String × Room, rp ∈ st.rooms → rp.1 ≠ r →
            rp ∈ rooms2 := by
          intro rp hrp hne
          rw [hrooms2def]
          by_cases hE : (roomDelete room c).isEmpty
          · simp only [hE, if_true]
            apply mapGetR_eq_some_mem
            rw [mapGetR_mapDelR_ne _ _ _ hne]
            exact mapGetR_of_mem_nodup hknd hrp
          · simp only [hE, Bool.false_eq_true, if_false]
            apply mapGetR_eq_some_mem
            rw [mapGetR_mapSetR_ne _ _ _ _ hne]
            exact mapGetR_of_mem_nodup hknd hrp
        refine ⟨⟨?_, ?_⟩, ?_, ?_, ?_, ?_, ?_⟩
        · intro rp hrp
          rcases hmemrooms rp hrp with ⟨hk, hv, hE⟩ | ⟨hk, hmem⟩
          · constructor
            · rw [hv]
              intro hnil
              rw [hnil] at hE
              simp at hE
            · intro p hp
              rw [hv] at hp
              obtain ⟨hpr, hpc⟩ := hpow p hp
              have hj := (hreg1 (r, room) hrmemst).2 p hpr
              rw [hk]
              exact hlift r p.id hpc hj
          · have hold := hreg1 rp hmem
            refine ⟨hold.1, fun p hp => ?_⟩
            have hpc : p.id ≠ c := fun hpc => hk (hconly rp hmem p hp hpc)
            exact hlift rp.1 p.id hpc (hold.2 p hp)
        · intro s' hs' hconn' r' hr'
          obtain ⟨s'', hs''mem, hseq⟩ := List.mem_map.mp hs'
          by_cases hc : s''.id = c
          · have hss : s'' = s :=
              List.inj_on_of_nodup_map hsnd hs''mem hsmem (by rw [hc, hsid])
            have hgs : g s'' = sockLeave r s'' := by
              rw [hgdef]
              simp [hc]
            rw [← hseq, hgs] at hr'
            have hr'' : r' ∈ s''.joined ∧ ¬(r' = r) := by
              have := List.mem_filter.mp hr'
              refine ⟨this.1, by simpa using this.2⟩
            rw [hss] at hr''
            exact absurd (hjsub r' hr''.1) hr''.2
          · have hgs : g s'' = s'' := hgne s'' hc
            rw [← hseq, hgs] at hconn' hr' ⊢
            obtain ⟨rp, hrpmem, hrp1, p, hpmem, hpid⟩ := hreg2 s'' hs''mem hconn' r' hr'
            by_cases hr'' : rp.1 = r
            · have hroomeq : rp.2 = room :=
                roomFind_eq_some_of_get hroomget hknd hrpmem hr''
              have hpin : p ∈ roomDelete room c := by
                apply mem_roomDelete_of_mem_ne
                · rw [← hroomeq]
                  exact hpmem
                · rw [hpid]
                  exact hc
              have hne : (roomDelete room c).isEmpty = false := by
                rcases h : (roomDelete room c).isEmpty with _ | _
                · rfl
                · rw [List.isEmpty_iff.mp h] at hpin
                  simp at hpin
              refine ⟨(r, roomDelete room c), ?_, by rw [← hr'']; exact hrp1,
                p, hpin, hpid⟩
              rw [hrooms2def]
              simp only [hne, Bool.false_eq_true, if_false]
              exact mapGetR_eq_some_mem (mapGetR_mapSetR_self _ _ _)
            · exact ⟨rp, hlift_room rp hrpmem hr'', hrp1, p, hpmem, hpid⟩
        · show ((st.sockets.map g).map Sock.id).Nodup
          rw [List.map_map]
          have hmc : st.sockets.map (Sock.id ∘ g) = st.sockets.map Sock.id :=
            List.map_congr_left (fun s' _ => hgid s')
          rw [hmc]
          exact hsnd
        · exact hknd'
        · intro rp hrp
          rcases hmemrooms rp hrp with ⟨_, hv, _⟩ | ⟨_, hmem⟩
          · rw [hv]
            exact hroom'nd
          · exact hrnd rp hmem
        · intro s' hs' r' hr'
          obtain ⟨s'', hs''mem, hseq⟩ := List.mem_map.mp hs'
          by_cases hc : s''.id = c
          · have hgs : g s'' = sockLeave r s'' := by
              rw [hgdef]
              simp [hc]
            rw [← hseq, hgs] at hr' ⊢
            have hin : r' ∈ s''.joined := (List.mem_filter.mp hr').1
            show s''.roomIdField = some r'
            exact hrf s'' hs''mem r' hin
          · have hgs : g s'' = s'' := hgne s'' hc
            rw [← hseq, hgs] at hr' ⊢
            exact hrf s'' hs''mem r' hr'
        · intro s' hs' hdisc
          obtain ⟨s'', hs''mem, hseq⟩ := List.mem_map.mp hs'
          by_cases hc : s''.id = c
          · have hgs : g s'' = sockLeave r s'' := by
              rw [hgdef]
              simp [hc]
            rw [← hseq, hgs] at hdisc ⊢
            have hdisc'' : s''.connected = false := hdisc
            have hjnil : s''.joined = [] := hdj s'' hs''mem hdisc''
            show s''.joined.filter (fun r' => r' ≠ r) = []
            rw [hjnil]
            rfl
          · have hgs : g s'' = s'' := hgne s'' hc
            rw [← hseq, hgs] at hdisc ⊢
            exact hdj s'' hs''mem hdisc

/-- `Inv` is preserved by a `disconnect` event, for any socket state. -/
theorem inv_step_disc (st : ServerState) (c : String) (hInv : Inv st) :
    Inv (step st (Ev.disc c)) := by
  obtain ⟨⟨hreg1, hreg2⟩, hsnd, hknd, hrnd, hrf, hdj⟩ := hInv
  show Inv (disconnectH st c).1
  set d : Sock → Sock := (fun s' => if s'.id = c then
    { s' with joined := ([] : List String), connected := false } else s') with hddef
  have hdid : ∀ s', (d s').id = s'.id := by
    intro s'
    by_cases h : s'.id = c
    · rw [hddef]
      simp only [if_pos h]
    · rw [hddef]
      simp only [if_neg h]
  have hdne : ∀ s', s'.id ≠ c → d s' = s' := by
    intro s' h
    rw [hddef]
    simp [h]
  have hidsnd : ((st.sockets.map d).map Sock.id).Nodup := by
    rw [List.map_map]
    have hmc : st.sockets.map (Sock.id ∘ d) = st.sockets.map Sock.id :=
      List.map_congr_left (fun s' _ => hdid s')
    rw [hmc]
    exact hsnd
  cases hfind : st.sockets.find? (fun s => s.id = c) with
  | none =>
    have hnotc : ∀ s' ∈ st.sockets, s'.id ≠ c := by
      intro s' hs' hc
      have := List.find?_eq_none.mp hfind s' hs'
      simp [hc] at this
    have hmapid : st.sockets.map d = st.sockets := by
      have h1 : st.sockets.map d = st.sockets.map (fun s' => s') :=
        List.map_congr_left (fun s' hs' => hdne s' (hnotc s' hs'))
      rw [h1]
      exact List.map_id' st.sockets
    have hshape : (disconnectH st c).1 = st := by
      simp only [disconnectH, hfind, updSock]
      show { st with sockets := st.sockets.map d } = st
      rw [hmapid]
    rw [hshape]
    exact ⟨⟨hreg1, hreg2⟩, hsnd, hknd, hrnd, hrf, hdj⟩
  | some s =>
    have hsmem : s ∈ st.sockets := List.mem_of_find?_eq_some hfind
    have hsid : s.id = c := by
      have := List.find?_some hfind
      simpa using this
    -- shared core: when the disconnecting socket is joined to nothing,
    -- the registry is untouched and only its socket record is cleared
    have hnoc : s.joined = [] → ∀ rp ∈ st.rooms, ∀ p ∈ rp.2, p.id ≠ c := by
      intro hjnil rp hrp p hp hpc
      obtain ⟨s'', hs''mem, hs''id, _, hs''j⟩ := (hreg1 rp hrp).2 p hp
      have hss : s'' = s :=
        List.inj_on_of_nodup_map hsnd hs''mem hsmem (by rw [hs''id, hpc, hsid])
      rw [hss, hjnil] at hs''j
      simp at hs''j
    have hcore : s.joined = [] →
        Inv { rooms := st.rooms, sockets := (st.sockets.map d) } := by
      intro hjnil
      have hlift : ∀ r'' cid, cid ≠ c → joinedTo st r'' cid →
          joinedTo { rooms := st.rooms, sockets := (st.sockets.map d) } r'' cid := by
        rintro r'' cid hne ⟨s'', hs''mem, hs''id, hs''conn, hs''j⟩
        have hgs : d s'' = s'' := hdne s'' (by rw [hs''id]; exact hne)
        exact ⟨d s'', List.mem_map_of_mem d hs''mem, by rw [hgs]; exact hs''id,
          by rw [hgs]; exact hs''conn, by rw [hgs]; exact hs''j⟩
      refine ⟨⟨?_, ?_⟩, hidsnd, hknd, hrnd, ?_, ?_⟩
      · intro rp hrp
        refine ⟨(hreg1 rp hrp).1, fun p hp => ?_⟩
        exact hlift rp.1 p.id (hnoc hjnil rp hrp p hp) ((hreg1 rp hrp).2 p hp)
      · intro s' hs' hconn' r' hr'
        obtain ⟨s'', hs''mem, hseq⟩ := List.mem_map.mp hs'
        by_cases hc : s''.id = c
        · have hgs : d s'' = { s'' with joined := ([] : List String), connected := false } := by
            rw [hddef]
            simp [hc]
          rw [← hseq, hgs] at hr'
          simp at hr'
        · have hgs : d s'' = s'' := hdne s'' hc
          rw [← hseq, hgs] at hconn' hr' ⊢
          exact hreg2 s'' hs''mem hconn' r' hr'
      · intro s' hs' r' hr'
        obtain ⟨s'', hs''mem, hseq⟩ := List.mem_map.mp hs'
        by_cases hc : s''.id = c
        · have hgs : d s'' = { s'' with joined := ([] : List String), connected := false } := by
            rw [hddef]
            simp [hc]
          rw [← hseq, hgs] at hr'
          simp at hr'
        · have hgs : d s'' = s'' := hdne s'' hc
          rw [← hseq, hgs] at hr' ⊢
          exact hrf s'' hs''mem r' hr'
      · intro s' hs' hdisc
        obtain ⟨s'', hs''mem, hseq⟩ := List.mem_map.mp hs'
        by_cases hc : s''.id = c
        · have hgs : d s'' = { s'' with joined := ([] : List String), connected := false } := by
            rw [hddef]
            simp [hc]
          rw [← hseq, hgs]
        · have hgs : d s'' = s'' := hdne s'' hc
          rw [← hseq, hgs] at hdisc ⊢
          exact hdj s'' hs''mem hdisc
    cases hrid : s.roomIdField with
    | none =>
      have hjnil : s.joined = [] := by
        cases hj : s.joined with
        | nil => rfl
        | cons r' rest =>
          have := hrf s hsmem r' (by rw [hj]; exact List.mem_cons_self _ _)
          rw [hrid] at this
          exact Option.noConfusion this
      have hshape : (disconnectH st c).1
          = { rooms := st.rooms, sockets := (st.sockets.map d) } := by
        simp only [disconnectH, hfind, hrid, updSock]
      rw [hshape]
      exact hcore hjnil
    | some r =>
      cases hroomget : mapGetR st.rooms r with
      | none =>
        have hjnil : s.joined = [] := by
          cases hj : s.joined with
          | nil => rfl
          | cons r' rest =>
            have hr'mem : r' ∈ s.joined := by
              rw [hj]
              exact List.mem_cons_self _ _
            have hr'r : r' = r := by
              have := hrf s hsmem r' hr'mem
              rw [hrid] at this
              exact Option.some_inj.mp this.symm
            have hconn : s.connected = true := by
              cases hcn : s.connected with
              | false =>
                have := hdj s hsmem hcn
                rw [hj] at this
                exact absurd this (List.cons_ne_nil r' rest)
              | true => rfl
            obtain ⟨rp, hrpmem, hrp1, _, _, _⟩ :=
              hreg2 s hsmem hconn r' hr'mem
            have hsome := mapGetR_of_mem_nodup hknd hrpmem
            rw [hrp1, hr'r, hroomget] at hsome
            exact Option.noConfusion hsome
        have hshape : (disconnectH st c).1
            = { rooms := st.rooms, sockets := (st.sockets.map d) } := by
          simp only [disconnectH, hfind, hrid, hroomget, updSock]
        rw [hshape]
        exact hcore hjnil
      | some room =>
        have hshape : (disconnectH st c).1
            = { rooms := (if (roomDelete room c).isEmpty
                  then mapDelR st.rooms r
                  else mapSetR st.rooms r (roomDelete room c)),
                sockets := (st.sockets.map d) } := by
          simp only [disconnectH, hfind, hrid, hroomget, updSock]
        rw [hshape]
        set rooms2 : List (String × Room) := (if (roomDelete room c).isEmpty
          then mapDelR st.rooms r else mapSetR st.rooms r (roomDelete room c))
          with hrooms2def
        have hjsub : ∀ r' ∈ s.joined, r' = r := by
          intro r' hr'
          have := hrf s hsmem r' hr'
          rw [hrid] at this
          exact Option.some_inj.mp this.symm
        have hrmemst : (r, room) ∈ st.rooms := mapGetR_eq_some_mem hroomget
        have hroomnd : (room.map Participant.id).Nodup := hrnd (r, room) hrmemst
        have hroom'nd : ((roomDelete room c).map Participant.id).Nodup :=
          (ids_roomDelete_sublist room c).nodup hroomnd
        have hconly : ∀ rp ∈ st.rooms, ∀ p ∈ rp.2, p.id = c → rp.1 = r := by
          intro rp hrp p hp hpc
          obtain ⟨s'', hs''mem, hs''id, _, hs''j⟩ := (hreg1 rp hrp).2 p hp
          have hss : s'' = s :=
            List.inj_on_of_nodup_map hsnd hs''mem hsmem (by rw [hs''id, hpc, hsid])
          rw [hss] at hs''j
          exact hjsub rp.1 hs''j
        have hpow : ∀ p ∈ roomDelete room c, p ∈ room ∧ p.id ≠ c := by
          intro p hp
          refine ⟨mem_roomDelete_sub hp, ?_⟩
          intro hpc
          have hfound := roomFind_of_mem_nodup hroom'nd hp
          rw [hpc, roomFind_roomDelete_self room c hroomnd] at hfound
          exact Option.noConfusion hfound
        have hlift : ∀ r'' cid, cid ≠ c → joinedTo st r'' cid →
            joinedTo { rooms := rooms2, sockets := (st.sockets.map d) } r'' cid := by
          rintro r'' cid hne ⟨s'', hs''mem, hs''id, hs''conn, hs''j⟩
          have hgs : d s'' = s'' := hdne s'' (by rw [hs''id]; exact hne)
          exact ⟨d s'', List.mem_map_of_mem d hs''mem, by rw [hgs]; exact hs''id,
            by rw [hgs]; exact hs''conn, by rw [hgs]; exact hs''j⟩
        have hknd' : (rooms2.map Prod.fst).Nodup := by
          rw [hrooms2def]
          by_cases hE : (roomDelete room c).isEmpty
          · simp only [hE, if_true]
            exact (keys_mapDelR_sublist st.rooms r).nodup hknd
          · simp only [hE, Bool.false_eq_true, if_false]
            exact nodup_keys_mapSetR st.rooms r _ hknd
        have hmemrooms : ∀ rp : String × Room, rp ∈ rooms2 →
            (rp.1 = r ∧ rp.2 = roomDelete room c ∧ (roomDelete room c).isEmpty = false)
              ∨ (rp.1 ≠ r ∧ rp ∈ st.rooms) := by
          intro rp hrp
          rw [hrooms2def] at hrp
          by_cases hE : (roomDelete room c).isEmpty
          · simp only [hE, if_true] at hrp
            right
            refine ⟨?_, mem_mapDelR_sub hrp⟩
            intro hk
            have hget := mapGetR_of_mem_nodup
              ((keys_mapDelR_sublist st.rooms r).nodup hknd) hrp
            rw [hk, mapGetR_mapDelR_self st.rooms r hknd] at hget
            exact Option.noConfusion hget
          · simp only [hE, Bool.false_eq_true, if_false] at hrp
            have hget := mapGetR_of_mem_nodup (nodup_keys_mapSetR st.rooms r _ hknd) hrp
            by_cases hk : rp.1 = r
            · left
              rw [hk, mapGetR_mapSetR_self] at hget
              exact ⟨hk, (Option.some_inj.mp hget).symm, Bool.eq_false_iff.mpr hE⟩
            · right
              rw [mapGetR_mapSetR_ne _ _ _ _ hk] at hget
              exact ⟨hk, mapGetR_eq_some_mem hget⟩
        have hlift_room : ∀ rp : String × Room, rp ∈ st.rooms → rp.1 ≠ r →
            rp ∈ rooms2 := by
          intro rp hrp hne
          rw [hrooms2def]
          by_cases hE : (roomDelete room c).isEmpty
          · simp only [hE, if_true]
            apply mapGetR_eq_some_mem
            rw [mapGetR_mapDelR_ne _ _ _ hne]
            exact mapGetR_of_mem_nodup hknd hrp
          · simp only [hE, Bool.false_eq_true, if_false]
            apply mapGetR_eq_some_mem
            rw [mapGetR_mapSetR_ne _ _ _ _ hne]
            exact mapGetR_of_mem_nodup hknd hrp
        refine ⟨⟨?_, ?_⟩, hidsnd, hknd', ?_, ?_, ?_⟩
        · intro rp hrp
          rcases hmemrooms rp hrp with ⟨hk, hv, hE⟩ | ⟨hk, hmem⟩
          · constructor
            · rw [hv]
              intro hnil
              rw [hnil] at hE
              simp at hE
            · intro p hp
              rw [hv] at hp
              obtain ⟨hpr, hpc⟩ := hpow p hp
              have hj := (hreg1 (r, room) hrmemst).2 p hpr
              rw [hk]
              exact hlift r p.id hpc hj
          · have hold := hreg1 rp hmem
            refine ⟨hold.1, fun p hp => ?_⟩
            have hpc : p.id ≠ c := fun hpc => hk (hconly rp hmem p hp hpc)
            exact hlift rp.1 p.id hpc (hold.2 p hp)
        · intro s' hs' hconn' r' hr'
          obtain ⟨s'', hs''mem, hseq⟩ := List.mem_map.mp hs'
          by_cases hc : s''.id = c
          · have hgs : d s'' = { s'' with joined := ([] : List String), connected := false } := by
              rw [hddef]
              simp [hc]
            rw [← hseq, hgs] at hr'
            simp at hr'
          · have hgs : d s'' = s'' := hdne s'' hc
            rw [← hseq, hgs] at hconn' hr' ⊢
            obtain ⟨rp, hrpmem, hrp1, p, hpmem, hpid⟩ := hreg2 s'' hs''mem hconn' r' hr'
            by_cases hr'' : rp.1 = r
            · have hroomeq : rp.2 = room :=
                roomFind_eq_some_of_get hroomget hknd hrpmem hr''
              have hpin : p ∈ roomDelete room c := by
                apply mem_roomDelete_of_mem_ne
                · rw [← hroomeq]
                  exact hpmem
                · rw [hpid]
                  exact hc
              have hne : (roomDelete room c).isEmpty = false := by
                rcases h : (roomDelete room c).isEmpty with _ | _
                · rfl
                · rw [List.isEmpty_iff.mp h] at hpin
                  simp at hpin
              refine ⟨(r, roomDelete room c), ?_, by rw [← hr'']; exact hrp1,
                p, hpin, hpid⟩
              rw [hrooms2def]
              simp only [hne, Bool.false_eq_true, if_false]
              exact mapGetR_eq_some_mem (mapGetR_mapSetR_self _ _ _)
            · exact ⟨rp, hlift_room rp hrpmem hr'', hrp1, p, hpmem, hpid⟩
        · intro rp hrp
          rcases hmemrooms rp hrp with ⟨_, hv, _⟩ | ⟨_, hmem⟩
          · rw [hv]
            exact hroom'nd
          · exact hrnd rp hmem
        · intro s' hs' r' hr'
          obtain ⟨s'', hs''mem, hseq⟩ := List.mem_map.mp hs'
          by_cases hc : s''.id = c
          · have hgs : d s'' = { s'' with joined := ([] : List String), connected := false } := by
              rw [hddef]
              simp [hc]
            rw [← hseq, hgs] at hr'
            simp at hr'
          · have hgs : d s'' = s'' := hdne s'' hc
            rw [← hseq, hgs] at hr' ⊢
            exact hrf s'' hs''mem r' hr'
        · intro s' hs' hdisc
          obtain ⟨s'', hs''mem, hseq⟩ := List.mem_map.mp hs'
          by_cases hc : s''.id = c
          · have hgs : d s'' = { s'' with joined := ([] : List String), connected := false } := by
              rw [hddef]
              simp [hc]
            rw [← hseq, hgs]
          · have hgs : d s'' = s'' := hdne s'' hc
            rw [← hseq, hgs] at hdisc ⊢
            exact hdj s'' hs''mem hdisc

/-- Replacing a registered room by an id-preserving re-mapping of its
participants preserves `Inv` (the common shape of the two toggle
handlers). -/
theorem inv_set_room_map (st : ServerState) (r : String) (room : Room)
    (hget : mapGetR st.rooms r = some room) (f : Participant → Participant)
    (hid : ∀ q, (f q).id = q.id) (hInv : Inv st) :
    Inv { rooms := (mapSetR st.rooms r (room.map f)), sockets := st.sockets } := by
  obtain ⟨⟨hreg1, hreg2⟩, hsnd, hknd, hrnd, hrf, hdj⟩ := hInv
  have hrmemst : (r, room) ∈ st.rooms := mapGetR_eq_some_mem hget
  have hids : (room.map f).map Participant.id = room.map Participant.id := by
    rw [List.map_map]
    exact List.map_congr_left (fun q _ => hid q)
  have hknd' : ((mapSetR st.rooms r (room.map f)).map Prod.fst).Nodup :=
    nodup_keys_mapSetR st.rooms r _ hknd
  have hmemrooms : ∀ rp : String × Room, rp ∈ mapSetR st.rooms r (room.map f) →
      (rp.1 = r ∧ rp.2 = room.map f) ∨ (rp.1 ≠ r ∧ rp ∈ st.rooms) := by
    intro rp hrp
    have hget' := mapGetR_of_mem_nodup hknd' hrp
    by_cases hk : rp.1 = r
    · left
      rw [hk, mapGetR_mapSetR_self] at hget'
      exact ⟨hk, (Option.some_inj.mp hget').symm⟩
    · right
      rw [mapGetR_mapSetR_ne _ _ _ _ hk] at hget'
      exact ⟨hk, mapGetR_eq_some_mem hget'⟩
  have hlift_room : ∀ rp : String × Room, rp ∈ st.rooms → rp.1 ≠ r →
      rp ∈ mapSetR st.rooms r (room.map f) := by
    intro rp hrp hne
    apply mapGetR_eq_some_mem
    rw [mapGetR_mapSetR_ne _ _ _ _ hne]
    exact mapGetR_of_mem_nodup hknd hrp
  have hrmem' : (r, room.map f) ∈ mapSetR st.rooms r (room.map f) :=
    mapGetR_eq_some_mem (mapGetR_mapSetR_self _ _ _)
  refine ⟨⟨?_, ?_⟩, hsnd, hknd', ?_, hrf, hdj⟩
  · intro rp hrp
    rcases hmemrooms rp hrp with ⟨hk, hv⟩ | ⟨hk, hmem⟩
    · constructor
      · rw [hv]
        intro hnil
        rw [List.map_eq_nil_iff] at hnil
        exact (hreg1 (r, room) hrmemst).1 hnil
      · intro p' hp'
        rw [hv] at hp'
        obtain ⟨p, hp, hfp⟩ := List.mem_map.mp hp'
        have hj := (hreg1 (r, room) hrmemst).2 p hp
        rw [hk, ← hfp, hid]
        exact hj
    · have hold := hreg1 rp hmem
      exact ⟨hold.1, fun p hp => hold.2 p hp⟩
  · intro s' hs' hconn' r' hr'
    obtain ⟨rp, hrpmem, hrp1, p, hpmem, hpid⟩ := hreg2 s' hs' hconn' r' hr'
    by_cases hk : rp.1 = r
    · have hroomeq : rp.2 = room := roomFind_eq_some_of_get hget hknd hrpmem hk
      refine ⟨(r, room.map f), hrmem', by rw [← hk]; exact hrp1,
        f p, List.mem_map_of_mem f (by rw [← hroomeq]; exact hpmem), ?_⟩
      rw [hid]
      exact hpid
    · exact ⟨rp, hlift_room rp hrpmem hk, hrp1, p, hpmem, hpid⟩
  · intro rp hrp
    rcases hmemrooms rp hrp with ⟨_, hv⟩ | ⟨_, hmem⟩
    · rw [hv, hids]
      exact hrnd (r, room) hrmemst
    · exact hrnd rp hmem

/-- `Inv` is preserved by a `toggle-audio` event. -/
theorem inv_step_togAudio (st : ServerState) (c r : String) (b : Bool)
    (hInv : Inv st) : Inv (step st (Ev.togAudio c r b)) := by
  show Inv (toggleAudioH st c r b).1
  cases hget : mapGetR st.rooms r with
  | none =>
    have hshape : (toggleAudioH st c r b).1 = st := by
      simp only [toggleAudioH, hget]
    rw [hshape]
    exact hInv
  | some room =>
    cases hfp : roomFind room c with
    | none =>
      have hshape : (toggleAudioH st c r b).1 = st := by
        simp only [toggleAudioH, hget, hfp]
      rw [hshape]
      exact hInv
    | some q =>
      have hshape : (toggleAudioH st c r b).1
          = { rooms := (mapSetR st.rooms r (room.map (fun p =>
                if p.id = c then { p with audioEnabled := b } else p))),
              sockets := st.sockets } := by
        simp only [toggleAudioH, hget, hfp]
      rw [hshape]
      refine inv_set_room_map st r room hget _ ?_ hInv
      intro p
      by_cases h : p.id = c <;> simp [h]

/-- `Inv` is preserved by a `toggle-video` event. -/
theorem inv_step_togVideo (st : ServerState) (c r : String) (b : Bool)
    (hInv : Inv st) : Inv (step st (Ev.togVideo c r b)) := by
  show Inv (toggleVideoH st c r b).1
  cases hget : mapGetR st.rooms r with
  | none =>
    have hshape : (toggleVideoH st c r b).1 = st := by
      simp only [toggleVideoH, hget]
    rw [hshape]
    exact hInv
  | some room =>
    cases hfp : roomFind room c with
    | none =>
      have hshape : (toggleVideoH st c r b).1 = st := by
        simp only [toggleVideoH, hget, hfp]
      rw [hshape]
      exact hInv
    | some q =>
      have hshape : (toggleVideoH st c r b).1
          = { rooms := (mapSetR st.rooms r (room.map (fun p =>
                if p.id = c then { p with videoEnabled := b } else p))),
              sockets := st.sockets } := by
        simp only [toggleVideoH, hget, hfp]
      rw [hshape]
      refine inv_set_room_map st r room hget _ ?_ hInv
      intro p
      by_cases h : p.id = c <;> simp [h]

/-- `Inv` is preserved along any admissible trace. -/
theorem inv_run (st : ServerState) (tr : List Ev) (hInv : Inv st)
    (htr : okTraceB st tr = true) : Inv (run st tr) := by
  induction tr generalizing st with
  | nil => exact hInv
  | cons e rest ih =>
    have htr' : okEvB st e = true ∧ okTraceB (step st e) rest = true := by
      rw [okTraceB, Bool.and_eq_true] at htr
      exact htr
    have hstep : Inv (step st e) := by
      cases e with
      | join c r n => exact inv_step_join st c r n hInv htr'.1
      | leave c => exact inv_step_leave st c hInv
      | disc c => exact inv_step_disc st c hInv
      | togAudio c r b => exact inv_step_togAudio st c r b hInv
      | togVideo c r b => exact inv_step_togVideo st c r b hInv
      | chat c r m => exact hInv
    exact ih (step st e) hstep htr'.2

/-- `Inv` holds in the initial state of any set of distinct connections. -/
theorem inv_init (ids : List String) (h : ids.Nodup) : Inv (init ids) := by
  refine ⟨⟨?_, ?_⟩, ?_, ?_, ?_, ?_, ?_⟩
  · intro rp hrp
    simp [init] at hrp
  · intro s hs hconn r hr
    obtain ⟨i, _, hmk⟩ := List.mem_map.mp hs
    rw [← hmk] at hr
    simp at hr
  · show ((init ids).sockets.map Sock.id).Nodup
    unfold init
    rw [List.map_map]
    have : ids.map (Sock.id ∘ (fun i =>
        ({ id := i, userName := none, roomIdField := none, joined := [],
           connected := true } : Sock))) = ids.map (fun i => i) :=
      List.map_congr_left (fun i _ => rfl)
    rw [this, List.map_id']
    exact h
  · show ((init ids).rooms.map Prod.fst).Nodup
    simp [init]
  · intro rp hrp
    simp [init] at hrp
  · intro s hs r hr
    obtain ⟨i, _, hmk⟩ := List.mem_map.mp hs
    rw [← hmk] at hr
    simp at hr
  · intro s hs hdisc
    obtain ⟨i, _, hmk⟩ := List.mem_map.mp hs
    rw [← hmk] at hdisc
    simp at hdisc

/-- C2: along every admissible trace of join/leave/disconnect (and
toggle/chat) events — admissible meaning events come from live
connections and no connection joins a second room while still joined to
another — every registered room is non-empty and its participant set
equals, in both directions, the set of connections currently joined to
it. -/
theorem registry_matches_trace (ids : List String) (tr : List Ev)
    (hids : ids.Nodup) (htr : okTraceB (init ids) tr = true) :
    RegistryMatches (run (init ids) tr) :=
  (inv_run (init ids) tr (inv_init ids hids) htr).1

/-- Witness for `registry_matches_trace` on a join-join-leave-disconnect
trace. -/
theorem registry_matches_trace_witness :
    (["s1", "s2"] : List String).Nodup
    ∧ okTraceB (init ["s1", "s2"]) [Ev.join "s1" "r1" "a", Ev.join "s2" "r1" "b",
        Ev.leave "s1", Ev.disc "s2"] = true
    ∧ RegistryMatches (run (init ["s1", "s2"]) [Ev.join "s1" "r1" "a",
        Ev.join "s2" "r1" "b", Ev.leave "s1", Ev.disc "s2"]) :=
  ⟨by decide, by decide,
   registry_matches_trace ["s1", "s2"]
     [Ev.join "s1" "r1" "a", Ev.join "s2" "r1" "b", Ev.leave "s1", Ev.disc "s2"]
     (by decide) (by decide)⟩

/-- C2 counterexample: a connection that joins room "A", then joins room
"B" without leaving, then disconnects, leaves a zombie entry in room
"A"'s registry although no connection is joined to "A" — the claimed
invariant fails for this event sequence. -/
theorem registry_mismatch_cross_room_join :
    ¬ RegistryMatches (run (init ["s1"])
      [Ev.join "s1" "A" "n", Ev.join "s1" "B" "n", Ev.disc "s1"]) := by
  decide

/-! ### Per-room uniqueness of connection ids (C8) -/

/-- All connection ids appearing in any room of the registry, with
multiplicity across rooms. -/
def allRoomIds (st : ServerState) : List String :=
  (st.rooms.map (fun rp => rp.2.map Participant.id)).flatten

/-- Each room's participant ids stay duplicate-free under any single
event — `Map.set` replaces an existing entry rather than appending. -/
theorem perRoomNodup_step (st : ServerState) (e : Ev)
    (h : ∀ rp ∈ st.rooms, (rp.2.map Participant.id).Nodup) :
    ∀ rp ∈ (step st e).rooms, (rp.2.map Participant.id).Nodup := by
  cases e with
  | join c r n =>
    by_cases hc : (mapGetR st.rooms r).isSome
    · obtain ⟨w, hw⟩ := Option.isSome_iff_exists.mp hc
      have hshape : (step st (Ev.join c r n)).rooms
          = mapSetR st.rooms r (roomSet w ⟨c, n, true, true⟩) := by
        show (joinRoom st c r n).1.rooms = _
        simp only [joinRoom, updSock, hw, Option.isSome_some, if_true,
          Option.getD_some]
      intro rp hrp
      rw [hshape] at hrp
      rcases mem_mapSetR hrp with hv | hmem
      · rw [hv]
        exact nodup_ids_roomSet w _ (h (r, w) (mapGetR_eq_some_mem hw))
      · exact h rp hmem
    · have hnone : mapGetR st.rooms r = none := Option.not_isSome_iff_eq_none.mp hc
      have hshape : (step st (Ev.join c r n)).rooms
          = mapSetR (st.rooms ++ [(r, [])]) r (roomSet [] ⟨c, n, true, true⟩) := by
        show (joinRoom st c r n).1.rooms = _
        simp only [joinRoom, updSock, if_neg hc,
          mapGetR_append_none st.rooms r [] hnone, Option.getD_some]
      intro rp hrp
      rw [hshape] at hrp
      rcases mem_mapSetR hrp with hv | hmem
      · rw [hv]
        simp [roomSet]
      · rcases List.mem_append.mp hmem with hmem | hmem
        · exact h rp hmem
        · rw [List.mem_singleton.mp hmem]
          simp
  | leave c =>
    show ∀ rp ∈ (leaveRoomH st c).1.rooms, _
    cases hfind : st.sockets.find? (fun s => s.id = c) with
    | none =>
      have hshape : (leaveRoomH st c).1 = st := by
        simp only [leaveRoomH, hfind]
      rw [hshape]
      exact h
    | some s =>
      cases hrid : s.roomIdField with
      | none =>
        have hshape : (leaveRoomH st c).1 = st := by
          simp only [leaveRoomH, hfind, hrid]
        rw [hshape]
        exact h
      | some r =>
        cases hroomget : mapGetR st.rooms r with
        | none =>
          have hshape : (leaveRoomH st c).1 = st := by
            simp only [leaveRoomH, hfind, hrid, hroomget]
          rw [hshape]
          exact h
        | some room =>
          have hshape : (leaveRoomH st c).1.rooms
              = (if (roomDelete room c).isEmpty
                  then mapDelR st.rooms r
                  else mapSetR st.rooms r (roomDelete room c)) := by
            simp only [leaveRoomH, hfind, hrid, hroomget, updSock]
          intro rp hrp
          rw [hshape] at hrp
          have hrnodup : ((roomDelete room c).map Participant.id).Nodup :=
            (ids_roomDelete_sublist room c).nodup
              (h (r, room) (mapGetR_eq_some_mem hroomget))
          by_cases hE : (roomDelete room c).isEmpty
          · rw [if_pos hE] at hrp
            exact h rp (mem_mapDelR_sub hrp)
          · rw [if_neg hE] at hrp
            rcases mem_mapSetR hrp with hv | hmem
            · rw [hv]
              exact hrnodup
            · exact h rp hmem
  | disc c =>
    show ∀ rp ∈ (disconnectH st c).1.rooms, _
    cases hfind : st.sockets.find? (fun s => s.id = c) with
    | none =>
      have hshape : (disconnectH st c).1.rooms = st.rooms := by
        simp only [disconnectH, hfind, updSock]
      rw [hshape]
      exact h
    | some s =>
      cases hrid : s.roomIdField with
      | none =>
        have hshape : (disconnectH st c).1.rooms = st.rooms := by
          simp only [disconnectH, hfind, hrid, updSock]
        rw [hshape]
        exact h
      | some r =>
        cases hroomget : mapGetR st.rooms r with
        | none =>
          have hshape : (disconnectH st c).1.rooms = st.rooms := by
            simp only [disconnectH, hfind, hrid, hroomget, updSock]
          rw [hshape]
          exact h
        | some room =>
          have hshape : (disconnectH st c).1.rooms
              = (if (roomDelete room c).isEmpty
                  then mapDelR st.rooms r
                  else mapSetR st.rooms r (roomDelete room c)) := by
            simp only [disconnectH, hfind, hrid, hroomget, updSock]
          intro rp hrp
          rw [hshape] at hrp
          have hrnodup : ((roomDelete room c).map Participant.id).Nodup :=
            (ids_roomDelete_sublist room c).nodup
              (h (r, room) (mapGetR_eq_some_mem hroomget))
          by_cases hE : (roomDelete room c).isEmpty
          · rw [if_pos hE] at hrp
            exact h rp (mem_mapDelR_sub hrp)
          · rw [if_neg hE] at hrp
            rcases mem_mapSetR hrp with hv | hmem
            · rw [hv]
              exact hrnodup
            · exact h rp hmem
  | togAudio c r b =>
    show ∀ rp ∈ (toggleAudioH st c r b).1.rooms, _
    cases hget : mapGetR st.rooms r with
    | none =>
      have hshape : (toggleAudioH st c r b).1 = st := by
        simp only [toggleAudioH, hget]
      rw [hshape]
      exact h
    | some room =>
      cases hfp : roomFind room c with
      | none =>
        have hshape : (toggleAudioH st c r b).1 = st := by
          simp only [toggleAudioH, hget, hfp]
        rw [hshape]
        exact h
      | some q =>
        have hshape : (toggleAudioH st c r b).1.rooms
            = mapSetR st.rooms r (room.map (fun p =>
                if p.id = c then { p with audioEnabled := b } else p)) := by
          simp only [toggleAudioH, hget, hfp]
        intro rp hrp
        rw [hshape] at hrp
        rcases mem_mapSetR hrp with hv | hmem
        · rw [hv]
          show ((room.map _).map Participant.id).Nodup
          rw [List.map_map]
          have hmc : room.map (Participant.id ∘ (fun p =>
              if p.id = c then { p with audioEnabled := b } else p))
                = room.map Participant.id := by
            refine List.map_congr_left (fun p _ => ?_)
            by_cases hpc : p.id = c <;> simp [hpc]
          rw [hmc]
          exact h (r, room) (mapGetR_eq_some_mem hget)
        · exact h rp hmem
  | togVideo c r b =>
    show ∀ rp ∈ (toggleVideoH st c r b).1.rooms, _
    cases hget : mapGetR st.rooms r with
    | none =>
      have hshape : (toggleVideoH st c r b).1 = st := by
        simp only [toggleVideoH, hget]
      rw [hshape]
      exact h
    | some room =>
      cases hfp : roomFind room c with
      | none =>
        have hshape : (toggleVideoH st c r b).1 = st := by
          simp only [toggleVideoH, hget, hfp]
        rw [hshape]
        exact h
      | some q =>
        have hshape : (toggleVideoH st c r b).1.rooms
            = mapSetR st.rooms r (room.map (fun p =>
                if p.id = c then { p with videoEnabled := b } else p)) := by
          simp only [toggleVideoH, hget, hfp]
        intro rp hrp
        rw [hshape] at hrp
        rcases mem_mapSetR hrp with hv | hmem
        · rw [hv]
          show ((room.map _).map Participant.id).Nodup
          rw [List.map_map]
          have hmc : room.map (Participant.id ∘ (fun p =>
              if p.id = c then { p with videoEnabled := b } else p))
                = room.map Participant.id := by
            refine List.map_congr_left (fun p _ => ?_)
            by_cases hpc : p.id = c <;> simp [hpc]
          rw [hmc]
          exact h (r, room) (mapGetR_eq_some_mem hget)
        · exact h rp hmem
  | chat c r m =>
    exact h

/-- Per-room uniqueness along any trace from any state satisfying it. -/
theorem perRoomNodup_run (st : ServerState) (tr : List Ev)
    (h : ∀ rp ∈ st.rooms, (rp.2.map Participant.id).Nodup) :
    ∀ rp ∈ (run st tr).rooms, (rp.2.map Participant.id).Nodup := by
  induction tr generalizing st with
  | nil => exact h
  | cons e rest ih => exact ih (step st e) (perRoomNodup_step st e h)

/-- C8 (amended): for every sequence of events, within each room's map a
connection id appears at most once — a repeated `join-room` to the same
room replaces the connection's entry via `Map.set` rather than
duplicating it.  (Cross-room duplication is still possible; see the
counterexample.) -/
theorem join_replaces_within_room (ids : List String) (tr : List Ev) :
    ∀ rp ∈ (run (init ids) tr).rooms, (rp.2.map Participant.id).Nodup := by
  apply perRoomNodup_run
  intro rp hrp
  simp [init] at hrp

/-- Witness for `join_replaces_within_room`: after "s1" joins "r1" twice
(second time under the name "b"), the room holds a single entry for
"s1", carrying the latest name. -/
theorem join_replaces_within_room_witness :
    (("r1", [⟨"s1", "b", true, true⟩]) : String × Room)
        ∈ (run (init ["s1"]) [Ev.join "s1" "r1" "a", Ev.join "s1" "r1" "b"]).rooms
    ∧ ((([⟨"s1", "b", true, true⟩] : Room)).map Participant.id).Nodup :=
  ⟨by decide,
   join_replaces_within_room ["s1"] [Ev.join "s1" "r1" "a", Ev.join "s1" "r1" "b"]
     ("r1", [⟨"s1", "b", true, true⟩]) (by decide)⟩

/-- C8 counterexample: a `join-room` to a second room without leaving the
first leaves the connection id registered in *both* rooms — "s1" appears
twice in the registry, refuting the claim that after any sequence of
joins each connection id appears at most once in the registry. -/
theorem cross_room_join_duplicates_id :
    (allRoomIds (run (init ["s1"])
      [Ev.join "s1" "A" "n", Ev.join "s1" "B" "n"])).count "s1" = 2 := by
  decide

/-! ## Client peer-session manager (src/contexts/VideoContext.tsx) -/

/-- WebRTC signaling states the client code observes. -/
inductive SigState
  | stable
  | haveLocalOffer
  | haveRemoteOffer
  | closed
deriving DecidableEq, Repr

/-- Session descriptions are opaque to the signaling logic; only their
role matters. -/
inductive Sdp
  | offerSdp
  | answerSdp
deriving DecidableEq, Repr

/-- The state of one `RTCPeerConnection` as the client logic drives it. -/
structure PC where
  signalingState : SigState
  localDesc : Option Sdp
  remoteDesc : Option Sdp
deriving DecidableEq, Repr

/-- `new RTCPeerConnection(rtcConfig)`. -/
def freshPC : PC := ⟨SigState.stable, none, none⟩

/-- The `peerConnections` ref: a `Map<string, RTCPeerConnection>`. -/
abbrev PeerMap := List (String × PC)

/-- Observable effects of the client handlers: signaling emits and
reducer dispatches. -/
inductive ClientOut
  | sendOffer (target : String) (sdp : Sdp)
  | sendAnswer (target : String) (sdp : Sdp)
  | addParticipant (p : Participant)
deriving DecidableEq, Repr

/-- `createAndSendOffer`: create an offer, set it as local description,
emit `offer {target, offer}`. -/
def createAndSendOffer (participantId : String) (pc : PC) : PC × List ClientOut :=
  let offer := Sdp.offerSdp
  let pc' := { pc with localDesc := some offer, signalingState := SigState.haveLocalOffer }
  (pc', [ClientOut.sendOffer participantId offer])

/-- `createPeerConnection(participantId, shouldCreateOffer)`: store a
fresh connection in the map, and originate an offer only when
`shouldCreateOffer` is set. -/
def createPeerConnection (pm : PeerMap) (participantId : String)
    (shouldCreateOffer : Bool) : PeerMap × List ClientOut :=
  if shouldCreateOffer then
    let (pc1, outs) := createAndSendOffer participantId freshPC
    (mapSetR pm participantId pc1, outs)
  else
    (mapSetR pm participantId freshPC, [])

/-- `socket.on('existing-participants')`: for each listed participant,
dispatch ADD_PARTICIPANT and `createPeerConnection(id, true)`. -/
def onExistingParticipants (pm : PeerMap) (ps : List Participant) :
    PeerMap × List ClientOut :=
  ps.foldl (fun acc p =>
    let (pm', outs) := createPeerConnection acc.1 p.id true
    (pm', acc.2 ++ [ClientOut.addParticipant p] ++ outs)) (pm, [])

/-- `socket.on('user-joined')`: dispatch ADD_PARTICIPANT and
`createPeerConnection(id, false)` — no offer is originated. -/
def onUserJoined (pm : PeerMap) (p : Participant) : PeerMap × List ClientOut :=
  let (pm', outs) := createPeerConnection pm p.id false
  (pm', [ClientOut.addParticipant p] ++ outs)

/-- `handleOffer(senderId, offer)`: if no (non-closed) peer connection
exists for the sender, log and return; otherwise set the remote
description, create an answer, set it as local description, and emit
`answer {target: senderId, answer}`. -/
def handleOffer (pm : PeerMap) (senderId : String) (offer : Sdp) :
    PeerMap × List ClientOut :=
  match mapGetR pm senderId with
  | none => (pm, [])
  | some pc =>
    if pc.signalingState = SigState.closed then (pm, [])
    else
      let pc1 := { pc with remoteDesc := some offer, signalingState := SigState.haveRemoteOffer }
      let answer := Sdp.answerSdp
      let pc2 := { pc1 with localDesc := some answer, signalingState := SigState.stable }
      (mapSetR pm senderId pc2, [ClientOut.sendAnswer senderId answer])

/-- The targets of the offers contained in a client output list. -/
def offersSentBy (outs : List ClientOut) : List String :=
  outs.filterMap (fun o => match o with
    | ClientOut.sendOffer t _ => some t
    | _ => none)

theorem offersSentBy_append (a b : List ClientOut) :
    offersSentBy (a ++ b) = offersSentBy a ++ offersSentBy b :=
  List.filterMap_append a b _

/-- A participant learned via `user-joined` triggers no offer. -/
theorem offers_onUserJoined (pm : PeerMap) (p : Participant) :
    offersSentBy (onUserJoined pm p).2 = [] := rfl

theorem offers_onExisting_aux (ps : List Participant) (pm : PeerMap)
    (acc : List ClientOut) :
    offersSentBy (ps.foldl (fun acc p =>
        let (pm', outs) := createPeerConnection acc.1 p.id true
        (pm', acc.2 ++ [ClientOut.addParticipant p] ++ outs)) (pm, acc)).2
      = offersSentBy acc ++ ps.map Participant.id := by
  induction ps generalizing pm acc with
  | nil => simp [offersSentBy]
  | cons p rest ih =>
    rw [List.foldl_cons]
    have hstep : (match createPeerConnection (pm, acc).1 p.id true with
        | (pm', outs) => (pm', (pm, acc).2 ++ [ClientOut.addParticipant p] ++ outs))
          = ((mapSetR pm p.id { freshPC with localDesc := some Sdp.offerSdp, signalingState := SigState.haveLocalOffer } : PeerMap),
             acc ++ [ClientOut.addParticipant p] ++ [ClientOut.sendOffer p.id Sdp.offerSdp]) := rfl
    rw [hstep, ih]
    rw [offersSentBy_append, offersSentBy_append]
    simp [offersSentBy]

/-- A client learning of N participants via `existing-participants`
originates exactly one offer toward each of them, in order. -/
theorem offers_onExisting (pm : PeerMap) (ps : List Participant) :
    offersSentBy (onExistingParticipants pm ps).2 = ps.map Participant.id := by
  have h := offers_onExisting_aux ps pm []
  unfold onExistingParticipants
  rw [h]
  rfl

/-- C7 counterexample: an inbound offer from a sender with no existing
peer connection is dropped — no connection is created, no answer sent —
whereas the claim says one is created and an answer returned. -/
theorem offer_without_link_dropped :
    (handleOffer [] "s9" Sdp.offerSdp).1 = []
    ∧ (handleOffer [] "s9" Sdp.offerSdp).2 = []
    ∧ mapGetR (handleOffer [] "s9" Sdp.offerSdp).1 "s9" = none := by
  refine ⟨rfl, rfl, rfl⟩

/-- C7 (amended): on receiving an inbound offer for a sender that *does*
have a non-closed peer connection, the client sets the remote
description from the offer, creates an answer, sets it as the local
description, and sends the answer back to that sender; an offer from a
sender with no peer connection is dropped. -/
theorem handleOffer_answers (pm : PeerMap) (senderId : String) (offer : Sdp)
    (pc : PC) (hpc : mapGetR pm senderId = some pc)
    (hcl : pc.signalingState ≠ SigState.closed) :
    mapGetR (handleOffer pm senderId offer).1 senderId
        = some { pc with remoteDesc := some offer, localDesc := some Sdp.answerSdp, signalingState := SigState.stable }
    ∧ (handleOffer pm senderId offer).2
        = [ClientOut.sendAnswer senderId Sdp.answerSdp] := by
  have hshape : handleOffer pm senderId offer
      = (mapSetR pm senderId { pc with remoteDesc := some offer, localDesc := some Sdp.answerSdp, signalingState := SigState.stable },
         [ClientOut.sendAnswer senderId Sdp.answerSdp]) := by
    simp only [handleOffer, hpc, if_neg hcl]
  rw [hshape]
  exact ⟨mapGetR_mapSetR_self pm senderId _, rfl⟩

/-- Witness for `handleOffer_answers` at a freshly created link. -/
theorem handleOffer_answers_witness :
    mapGetR [("s1", freshPC)] "s1" = some freshPC
    ∧ (handleOffer [("s1", freshPC)] "s1" Sdp.offerSdp).2
        = [ClientOut.sendAnswer "s1" Sdp.answerSdp] :=
  ⟨by decide,
   (handleOffer_answers [("s1", freshPC)] "s1" Sdp.offerSdp freshPC
     (by decide) (by decide)).2⟩

/-! ## Client video state reducer (videoReducer, VideoContext.tsx) -/

/-- One media track; the reducer only flips its `enabled` flag. -/
structure MediaTrack where
  enabled : Bool
deriving DecidableEq, Repr

/-- A `MediaStream` as the reducer sees it: its audio and video tracks. -/
structure MediaStreamM where
  audioTracks : List MediaTrack
  videoTracks : List MediaTrack
deriving DecidableEq, Repr

/-- A participant in the client's UI state (may carry a remote stream). -/
structure ClientParticipant where
  id : String
  name : String
  stream : Option MediaStreamM
  audioEnabled : Bool
  videoEnabled : Bool
deriving DecidableEq, Repr

/-- A `Partial<Participant>` as used by UPDATE_PARTICIPANT: present
fields overwrite, absent fields keep the old value. -/
structure PartUpdates where
  name : Option String := none
  stream : Option MediaStreamM := none
  audioEnabled : Option Bool := none
  videoEnabled : Option Bool := none
deriving DecidableEq, Repr

/-- Object spread `{ ...p, ...updates }`. -/
def applyUpdates (p : ClientParticipant) (u : PartUpdates) : ClientParticipant :=
  { p with
    name := u.name.getD p.name,
    stream := (match u.stream with | some s => some s | none => p.stream),
    audioEnabled := u.audioEnabled.getD p.audioEnabled,
    videoEnabled := u.videoEnabled.getD p.videoEnabled }

/-- The client `VideoState`. -/
structure VideoState where
  localStream : Option MediaStreamM
  participants : List ClientParticipant
  isAudioEnabled : Bool
  isVideoEnabled : Bool
  isScreenSharing : Bool
  roomId : Option String
  chatMessages : List ChatMsg
  socket : Option Nat
  isConnected : Bool
deriving DecidableEq, Repr

/-- The `VideoAction` union. -/
inductive VideoAction
  | SET_LOCAL_STREAM (payload : Option MediaStreamM)
  | TOGGLE_AUDIO
  | TOGGLE_VIDEO
  | TOGGLE_SCREEN_SHARE
  | SET_ROOM_ID (payload : String)
  | ADD_PARTICIPANT (payload : ClientParticipant)
  | REMOVE_PARTICIPANT (payload : String)
  | UPDATE_PARTICIPANT (id : String) (updates : PartUpdates)
  | ADD_CHAT_MESSAGE (payload : ChatMsg)
  | DELETE_CHAT_MESSAGE (payload : String)
  | SET_SOCKET (payload : Option Nat)
  | SET_CONNECTED (payload : Bool)
  | CLEAR_ROOM
deriving DecidableEq, Repr

/-- `initialState` of the reducer. -/
def initialState : VideoState :=
  { localStream := none, participants := [], isAudioEnabled := true,
    isVideoEnabled := true, isScreenSharing := false, roomId := none,
    chatMessages := [], socket := none, isConnected := false }

/-- The `videoReducer` switch, case by case.  `CLEAR_ROOM` returns
`{ ...initialState, socket: state.socket }` and is the only dispatch the
client `leaveRoom` function performs. -/
def videoReducer (state : VideoState) : VideoAction → VideoState
  | VideoAction.SET_LOCAL_STREAM s => { state with localStream := s }
  | VideoAction.TOGGLE_AUDIO =>
      let newAudioState := !state.isAudioEnabled
      let stream' := state.localStream.map (fun ms =>
        { ms with audioTracks := ms.audioTracks.map (fun t => { t with enabled := newAudioState }) })
      { state with isAudioEnabled := newAudioState, localStream := stream' }
  | VideoAction.TOGGLE_VIDEO =>
      let newVideoState := !state.isVideoEnabled
      let stream' := state.localStream.map (fun ms =>
        { ms with videoTracks := ms.videoTracks.map (fun t => { t with enabled := newVideoState }) })
      { state with isVideoEnabled := newVideoState, localStream := stream' }
  | VideoAction.TOGGLE_SCREEN_SHARE =>
      { state with isScreenSharing := !state.isScreenSharing }
  | VideoAction.SET_ROOM_ID r => { state with roomId := some r }
  | VideoAction.ADD_PARTICIPANT p =>
      { state with participants := state.participants ++ [p] }
  | VideoAction.REMOVE_PARTICIPANT i =>
      { state with participants := state.participants.filter (fun p => p.id ≠ i) }
  | VideoAction.UPDATE_PARTICIPANT i u =>
      { state with participants := state.participants.map (fun p =>
          if p.id = i then applyUpdates p u else p) }
  | VideoAction.ADD_CHAT_MESSAGE m =>
      { state with chatMessages := state.chatMessages ++ [m] }
  | VideoAction.DELETE_CHAT_MESSAGE i =>
      { state with chatMessages := state.chatMessages.filter (fun m => m.msgId ≠ i) }
  | VideoAction.SET_SOCKET s => { state with socket := s }
  | VideoAction.SET_CONNECTED b => { state with isConnected := b }
  | VideoAction.CLEAR_ROOM => { initialState with socket := state.socket }

/-- C10: `CLEAR_ROOM` resets every field of the video state to its
initial value — localStream, participants, the three media flags,
roomId, chatMessages and isConnected — while leaving exactly the
`socket` field unchanged. -/
theorem clear_room_resets_all_but_socket (s : VideoState) :
    (videoReducer s VideoAction.CLEAR_ROOM).localStream = none
    ∧ (videoReducer s VideoAction.CLEAR_ROOM).participants = []
    ∧ (videoReducer s VideoAction.CLEAR_ROOM).isAudioEnabled = true
    ∧ (videoReducer s VideoAction.CLEAR_ROOM).isVideoEnabled = true
    ∧ (videoReducer s VideoAction.CLEAR_ROOM).isScreenSharing = false
    ∧ (videoReducer s VideoAction.CLEAR_ROOM).roomId = none
    ∧ (videoReducer s VideoAction.CLEAR_ROOM).chatMessages = []
    ∧ (videoReducer s VideoAction.CLEAR_ROOM).isConnected = false
    ∧ (videoReducer s VideoAction.CLEAR_ROOM).socket = s.socket :=
  ⟨rfl, rfl, rfl, rfl, rfl, rfl, rfl, rfl, rfl⟩

/-! ## Offer-origination asymmetry (C4)

The server tells a joiner about the current members via
`existing-participants` (the joiner's client then originates one offer
per member, `offers_onExisting`) and tells the members about the joiner
via `user-joined` (their clients originate nothing,
`offers_onUserJoined`).  `runOrigins` collects, over a server trace, the
(originator, target) pairs produced by running the client handler on
each `existing-participants` delivery. -/

/-- The offer originations caused by one handler's emissions: for each
`existing-participants` message, the offers the receiving client's
`onExistingParticipants` handler sends. -/
def originsOfEmits (emits : List Emit) : List (String × String) :=
  (emits.filterMap (fun e => match e with
    | Emit.direct d (Payload.existingParticipants ps) =>
        some ((offersSentBy (onExistingParticipants [] ps).2).map (fun t => (d, t)))
    | _ => none)).flatten

/-- All offer originations along a server trace. -/
def runOrigins : ServerState → List Ev → List (String × String)
  | _, [] => []
  | st, e :: tr => originsOfEmits (handle st e).2 ++ runOrigins (step st e) tr

/-- The connection ids of the join events of a trace, in order. -/
def joinIds (tr : List Ev) : List String :=
  tr.filterMap (fun e => match e with
    | Ev.join c _ _ => some c
    | _ => none)

theorem joinIds_cons (e : Ev) (tr : List Ev) :
    joinIds (e :: tr) = (match e with
      | Ev.join c _ _ => [c]
      | _ => []) ++ joinIds tr := by
  cases e <;> rfl

/-- Originations of a join: the joiner toward exactly the pre-existing
members of the room. -/
theorem origins_join (st : ServerState) (c r n : String) :
    originsOfEmits (joinRoom st c r n).2
      = (othersOf st r c).map (fun p => (c, p.id)) := by
  rw [joinRoom_snd]
  by_cases h : (othersOf st r c).isEmpty
  · have hnil : othersOf st r c = [] := List.isEmpty_iff.mp h
    simp [h, hnil, originsOfEmits]
  · simp only [h, Bool.false_eq_true, if_false, List.cons_append, List.nil_append]
    show (List.filterMap _ _).flatten = _
    rw [List.filterMap_cons, List.filterMap_cons]
    simp only [List.filterMap_nil]
    show (((offersSentBy (onExistingParticipants [] (othersOf st r c)).2).map
        (fun t => (c, t)) :: [] ++ []).flatten) = _
    rw [offers_onExisting]
    simp [List.map_map]

theorem origins_leave (st : ServerState) (c : String) :
    originsOfEmits (leaveRoomH st c).2 = [] := by
  cases hfind : st.sockets.find? (fun s => s.id = c) with
  | none =>
    simp only [leaveRoomH, hfind]
    rfl
  | some s =>
    cases hrid : s.roomIdField with
    | none =>
      simp only [leaveRoomH, hfind, hrid]
      rfl
    | some r =>
      cases hg : mapGetR st.rooms r with
      | none =>
        simp only [leaveRoomH, hfind, hrid, hg]
        rfl
      | some room =>
        simp only [leaveRoomH, hfind, hrid, hg, updSock]
        rfl

theorem origins_disc (st : ServerState) (c : String) :
    originsOfEmits (disconnectH st c).2 = [] := by
  cases hfind : st.sockets.find? (fun s => s.id = c) with
  | none =>
    simp only [disconnectH, hfind]
    rfl
  | some s =>
    cases hrid : s.roomIdField with
    | none =>
      simp only [disconnectH, hfind, hrid]
      rfl
    | some r =>
      cases hg : mapGetR st.rooms r with
      | none =>
        simp only [disconnectH, hfind, hrid, hg]
        rfl
      | some room =>
        simp only [disconnectH, hfind, hrid, hg]
        rfl

theorem origins_togAudio (st : ServerState) (c r : String) (b : Bool) :
    originsOfEmits (toggleAudioH st c r b).2 = [] := by
  cases hg : mapGetR st.rooms r with
  | none =>
    simp only [toggleAudioH, hg]
    rfl
  | some room =>
    cases hfp : roomFind room c with
    | none =>
      simp only [toggleAudioH, hg, hfp]
      rfl
    | some q =>
      simp only [toggleAudioH, hg, hfp]
      rfl

theorem origins_togVideo (st : ServerState) (c r : String) (b : Bool) :
    originsOfEmits (toggleVideoH st c r b).2 = [] := by
  cases hg : mapGetR st.rooms r with
  | none =>
    simp only [toggleVideoH, hg]
    rfl
  | some room =>
    cases hfp : roomFind room c with
    | none =>
      simp only [toggleVideoH, hg, hfp]
      rfl
    | some q =>
      simp only [toggleVideoH, hg, hfp]
      rfl

theorem mem_allRoomIds_intro {st : ServerState} {rp : String × Room}
    (hrp : rp ∈ st.rooms) {p : Participant} (hp : p ∈ rp.2) :
    p.id ∈ allRoomIds st := by
  unfold allRoomIds
  rw [List.mem_flatten]
  exact ⟨rp.2.map Participant.id,
    List.mem_map_of_mem (fun rp => rp.2.map Participant.id) hrp,
    List.mem_map_of_mem Participant.id hp⟩

theorem mem_allRoomIds_elim {st : ServerState} {x : String}
    (h : x ∈ allRoomIds st) : ∃ rp ∈ st.rooms, ∃ p ∈ rp.2, p.id = x := by
  unfold allRoomIds at h
  rw [List.mem_flatten] at h
  obtain ⟨ids, hids, hx⟩ := h
  obtain ⟨rp, hrp, hrpm⟩ := List.mem_map.mp hids
  rw [← hrpm] at hx
  obtain ⟨p, hp, hpid⟩ := List.mem_map.mp hx
  exact ⟨rp, hrp, p, hp, hpid⟩

/-- Whether an event is a `join-room` by connection `x`. -/
def isJoinOf : Ev → String → Prop
  | Ev.join c _ _, x => c = x
  | _, _ => False

/-- Each step only adds the joining connection's id to the registry's id
multiset; every other id present afterwards was present before. -/
theorem allRoomIds_step {st : ServerState} {e : Ev} {x : String}
    (hx : x ∈ allRoomIds (step st e)) :
    x ∈ allRoomIds st ∨ isJoinOf e x := by
  obtain ⟨rp, hrp, p, hp, hpid⟩ := mem_allRoomIds_elim hx
  cases e with
  | join c r n =>
    by_cases hc : (mapGetR st.rooms r).isSome
    · obtain ⟨w, hw⟩ := Option.isSome_iff_exists.mp hc
      have hshape : (step st (Ev.join c r n)).rooms
          = mapSetR st.rooms r (roomSet w ⟨c, n, true, true⟩) := by
        show (joinRoom st c r n).1.rooms = _
        simp only [joinRoom, updSock, hw, Option.isSome_some, if_true,
          Option.getD_some]
      rw [hshape] at hrp
      rcases mem_mapSetR hrp with hv | hmem
      · rw [hv] at hp
        rcases mem_roomSet hp with hpP | hpR
        · right
          rw [hpP] at hpid
          exact hpid.symm ▸ rfl
        · left
          rw [← hpid]
          exact mem_allRoomIds_intro (mapGetR_eq_some_mem hw) hpR
      · left
        rw [← hpid]
        exact mem_allRoomIds_intro hmem hp
    · have hnone : mapGetR st.rooms r = none := Option.not_isSome_iff_eq_none.mp hc
      have hshape : (step st (Ev.join c r n)).rooms
          = mapSetR (st.rooms ++ [(r, [])]) r (roomSet [] ⟨c, n, true, true⟩) := by
        show (joinRoom st c r n).1.rooms = _
        simp only [joinRoom, updSock, if_neg hc,
          mapGetR_append_none st.rooms r [] hnone, Option.getD_some]
      rw [hshape] at hrp
      rcases mem_mapSetR hrp with hv | hmem
      · rw [hv] at hp
        rcases mem_roomSet hp with hpP | hpR
        · right
          rw [hpP] at hpid
          exact hpid.symm ▸ rfl
        · simp at hpR
      · rcases List.mem_append.mp hmem with hmem | hmem
        · left
          rw [← hpid]
          exact mem_allRoomIds_intro hmem hp
        · rw [List.mem_singleton.mp hmem] at hp
          simp at hp
  | leave c =>
    replace hrp : rp ∈ (leaveRoomH st c).1.rooms := hrp
    cases hfind : st.sockets.find? (fun s => s.id = c) with
    | none =>
      rw [show (leaveRoomH st c).1 = st by simp only [leaveRoomH, hfind]] at hrp
      left
      rw [← hpid]
      exact mem_allRoomIds_intro hrp hp
    | some s =>
      cases hrid : s.roomIdField with
      | none =>
        rw [show (leaveRoomH st c).1 = st by simp only [leaveRoomH, hfind, hrid]] at hrp
        left
        rw [← hpid]
        exact mem_allRoomIds_intro hrp hp
      | some r =>
        cases hg : mapGetR st.rooms r with
        | none =>
          rw [show (leaveRoomH st c).1 = st by
            simp only [leaveRoomH, hfind, hrid, hg]] at hrp
          left
          rw [← hpid]
          exact mem_allRoomIds_intro hrp hp
        | some room =>
          have hshape : (leaveRoomH st c).1.rooms
              = (if (roomDelete room c).isEmpty
                  then mapDelR st.rooms r
                  else mapSetR st.rooms r (roomDelete room c)) := by
            simp only [leaveRoomH, hfind, hrid, hg, updSock]
          rw [hshape] at hrp
          left
          rw [← hpid]
          by_cases hE : (roomDelete room c).isEmpty
          · rw [if_pos hE] at hrp
            exact mem_allRoomIds_intro (mem_mapDelR_sub hrp) hp
          · rw [if_neg hE] at hrp
            rcases mem_mapSetR hrp with hv | hmem
            · rw [hv] at hp
              exact mem_allRoomIds_intro (mapGetR_eq_some_mem hg)
                (mem_roomDelete_sub hp)
            · exact mem_allRoomIds_intro hmem hp
  | disc c =>
    replace hrp : rp ∈ (disconnectH st c).1.rooms := hrp
    cases hfind : st.sockets.find? (fun s => s.id = c) with
    | none =>
      rw [show (disconnectH st c).1.rooms = st.rooms by
        simp only [disconnectH, hfind, updSock]] at hrp
      left
      rw [← hpid]
      exact mem_allRoomIds_intro hrp hp
    | some s =>
      cases hrid : s.roomIdField with
      | none =>
        rw [show (disconnectH st c).1.rooms = st.rooms by
          simp only [disconnectH, hfind, hrid, updSock]] at hrp
        left
        rw [← hpid]
        exact mem_allRoomIds_intro hrp hp
      | some r =>
        cases hg : mapGetR st.rooms r with
        | none =>
          rw [show (disconnectH st c).1.rooms = st.rooms by
            simp only [disconnectH, hfind, hrid, hg, updSock]] at hrp
          left
          rw [← hpid]
          exact mem_allRoomIds_intro hrp hp
        | some room =>
          have hshape : (disconnectH st c).1.rooms
              = (if (roomDelete room c).isEmpty
                  then mapDelR st.rooms r
                  else mapSetR st.rooms r (roomDelete room c)) := by
            simp only [disconnectH, hfind, hrid, hg, updSock]
          rw [hshape] at hrp
          left
          rw [← hpid]
          by_cases hE : (roomDelete room c).isEmpty
          · rw [if_pos hE] at hrp
            exact mem_allRoomIds_intro (mem_mapDelR_sub hrp) hp
          · rw [if_neg hE] at hrp
            rcases mem_mapSetR hrp with hv | hmem
            · rw [hv] at hp
              exact mem_allRoomIds_intro (mapGetR_eq_some_mem hg)
                (mem_roomDelete_sub hp)
            · exact mem_allRoomIds_intro hmem hp
  | togAudio c r b =>
    replace hrp : rp ∈ (toggleAudioH st c r b).1.rooms := hrp
    cases hg : mapGetR st.rooms r with
    | none =>
      rw [show (toggleAudioH st c r b).1 = st by simp only [toggleAudioH, hg]] at hrp
      left
      rw [← hpid]
      exact mem_allRoomIds_intro hrp hp
    | some room =>
      cases hfp : roomFind room c with
      | none =>
        rw [show (toggleAudioH st c r b).1 = st by
          simp only [toggleAudioH, hg, hfp]] at hrp
        left
        rw [← hpid]
        exact mem_allRoomIds_intro hrp hp
      | some q =>
        have hshape : (toggleAudioH st c r b).1.rooms
            = mapSetR st.rooms r (room.map (fun p =>
                if p.id = c then { p with audioEnabled := b } else p)) := by
          simp only [toggleAudioH, hg, hfp]
        rw [hshape] at hrp
        left
        rw [← hpid]
        rcases mem_mapSetR hrp with hv | hmem
        · rw [hv] at hp
          obtain ⟨q', hq', hq'eq⟩ := List.mem_map.mp hp
          have hqid : p.id = q'.id := by
            rw [← hq'eq]
            by_cases hqc : q'.id = c <;> simp [hqc]
          rw [hqid]
          exact mem_allRoomIds_intro (mapGetR_eq_some_mem hg) hq'
        · exact mem_allRoomIds_intro hmem hp
  | togVideo c r b =>
    replace hrp : rp ∈ (toggleVideoH st c r b).1.rooms := hrp
    cases hg : mapGetR st.rooms r with
    | none =>
      rw [show (toggleVideoH st c r b).1 = st by simp only [toggleVideoH, hg]] at hrp
      left
      rw [← hpid]
      exact mem_allRoomIds_intro hrp hp
    | some room =>
      cases hfp : roomFind room c with
      | none =>
        rw [show (toggleVideoH st c r b).1 = st by
          simp only [toggleVideoH, hg, hfp]] at hrp
        left
        rw [← hpid]
        exact mem_allRoomIds_intro hrp hp
      | some q =>
        have hshape : (toggleVideoH st c r b).1.rooms
            = mapSetR st.rooms r (room.map (fun p =>
                if p.id = c then { p with videoEnabled := b } else p)) := by
          simp only [toggleVideoH, hg, hfp]
        rw [hshape] at hrp
        left
        rw [← hpid]
        rcases mem_mapSetR hrp with hv | hmem
        · rw [hv] at hp
          obtain ⟨q', hq', hq'eq⟩ := List.mem_map.mp hp
          have hqid : p.id = q'.id := by
            rw [← hq'eq]
            by_cases hqc : q'.id = c <;> simp [hqc]
          rw [hqid]
          exact mem_allRoomIds_intro (mapGetR_eq_some_mem hg) hq'
        · exact mem_allRoomIds_intro hmem hp
  | chat c r m =>
    left
    rw [← hpid]
    exact mem_allRoomIds_intro hrp hp

/-- A head origination identifies the event as a join by the originator,
toward a distinct id already present in some room. -/
theorem origins_head_elim {st : ServerState} {e : Ev} {x y : String}
    (h : (x, y) ∈ originsOfEmits (handle st e).2) :
    ∃ r n, e = Ev.join x r n ∧ y ≠ x ∧ y ∈ allRoomIds st := by
  cases e with
  | join c r n =>
    rw [show handle st (Ev.join c r n) = joinRoom st c r n from rfl,
      origins_join] at h
    obtain ⟨p, hp, hpair⟩ := List.mem_map.mp h
    have hx : c = x := congrArg Prod.fst hpair
    have hy : p.id = y := congrArg Prod.snd hpair
    subst hx
    refine ⟨r, n, rfl, ?_, ?_⟩
    · unfold othersOf at hp
      have hf := (List.mem_filter.mp hp).2
      rw [← hy]
      simpa using hf
    · unfold othersOf at hp
      have hmem := (List.mem_filter.mp hp).1
      cases hg : mapGetR st.rooms r with
      | none =>
        rw [hg] at hmem
        simp at hmem
      | some room =>
        rw [hg] at hmem
        simp only [Option.getD_some] at hmem
        rw [← hy]
        exact mem_allRoomIds_intro (mapGetR_eq_some_mem hg) hmem
  | leave c =>
    rw [show handle st (Ev.leave c) = leaveRoomH st c from rfl, origins_leave] at h
    simp at h
  | disc c =>
    rw [show handle st (Ev.disc c) = disconnectH st c from rfl, origins_disc] at h
    simp at h
  | togAudio c r b =>
    rw [show handle st (Ev.togAudio c r b) = toggleAudioH st c r b from rfl,
      origins_togAudio] at h
    simp at h
  | togVideo c r b =>
    rw [show handle st (Ev.togVideo c r b) = toggleVideoH st c r b from rfl,
      origins_togVideo] at h
    simp at h
  | chat c r m =>
    simp [originsOfEmits, handle, chatMessageH] at h

/-- The originator of every origination pair joined somewhere in the
trace. -/
theorem runOrigins_fst {tr : List Ev} : ∀ {st : ServerState} {x y : String},
    (x, y) ∈ runOrigins st tr → x ∈ joinIds tr := by
  induction tr with
  | nil =>
    intro st x y h
    simp [runOrigins] at h
  | cons e rest ih =>
    intro st x y h
    rcases List.mem_append.mp h with h | h
    · obtain ⟨r, n, he, _, _⟩ := origins_head_elim h
      rw [he, joinIds_cons]
      exact List.mem_append_left _ (List.mem_singleton.mpr rfl)
    · rw [joinIds_cons]
      exact List.mem_append_right _ (ih h)

/-- Core asymmetry: along a trace whose joins carry pairwise-distinct
connection ids, all disjoint from ids already present in rooms, no pair
of connections ever originate offers toward each other. -/
theorem noGlare_aux (tr : List Ev) : ∀ (st : ServerState) (a b : String),
    (joinIds tr).Nodup →
    (∀ x, x ∈ allRoomIds st → x ∉ joinIds tr) →
    (a, b) ∈ runOrigins st tr → (b, a) ∈ runOrigins st tr → False := by
  induction tr with
  | nil =>
    intro st a b _ _ hab _
    simp [runOrigins] at hab
  | cons e rest ih =>
    intro st a b hnd hdisj hab hba
    rcases List.mem_append.mp hab with habH | habT
    · obtain ⟨r, n, he, hbne, hbmem⟩ := origins_head_elim habH
      rcases List.mem_append.mp hba with hbaH | hbaT
      · obtain ⟨r', n', he', hane, _⟩ := origins_head_elim hbaH
        rw [he] at he'
        injection he' with h1 _ _
        exact hbne h1.symm
      · have hbj : b ∈ joinIds rest := runOrigins_fst hbaT
        have hni := hdisj b hbmem
        rw [joinIds_cons] at hni
        exact hni (List.mem_append_right _ hbj)
    · rcases List.mem_append.mp hba with hbaH | hbaT
      · obtain ⟨r, n, he, hane, hamem⟩ := origins_head_elim hbaH
        have haj : a ∈ joinIds rest := runOrigins_fst habT
        have hni := hdisj a hamem
        rw [joinIds_cons] at hni
        exact hni (List.mem_append_right _ haj)
      · refine ih (step st e) a b ?_ ?_ habT hbaT
        · rw [joinIds_cons] at hnd
          cases e with
          | join c r n => exact (List.nodup_cons.mp hnd).2
          | leave c => exact hnd
          | disc c => exact hnd
          | togAudio c r b' => exact hnd
          | togVideo c r b' => exact hnd
          | chat c r m => exact hnd
        · intro x hx hxj
          rcases allRoomIds_step hx with hl | hj
          · have hni := hdisj x hl
            rw [joinIds_cons] at hni
            exact hni (List.mem_append_right _ hxj)
          · cases e with
            | join c r n =>
              have hcx : c = x := hj
              rw [joinIds_cons] at hnd
              have hcn : c ∉ joinIds rest := (List.nodup_cons.mp hnd).1
              rw [hcx] at hcn
              exact hcn hxj
            | leave c => exact hj.elim
            | disc c => exact hj.elim
            | togAudio c r b' => exact hj.elim
            | togVideo c r b' => exact hj.elim
            | chat c r m => exact hj.elim

/-- C4: for every trace in which each connection id joins at most once
(one "session" per pair), no two connections both originate an offer
toward each other: whoever joined later originates toward the earlier
member it learned via `existing-participants`, and the earlier member —
which learned of the later one only via `user-joined` — originates
nothing toward it (client side: `offers_onExisting`,
`offers_onUserJoined`). -/
theorem no_mutual_offer_origination (ids : List String) (tr : List Ev) (a b : String)
    (hnd : (joinIds tr).Nodup) (hab : (a, b) ∈ runOrigins (init ids) tr) :
    (b, a) ∉ runOrigins (init ids) tr := by
  intro hba
  refine noGlare_aux tr (init ids) a b hnd ?_ hab hba
  intro x hx
  simp [init, allRoomIds] at hx

/-- Witness for `no_mutual_offer_origination`: "s1" joins "r1", then
"s2" joins; "s2" originates toward "s1" and the reverse origination
never happens. -/
theorem no_mutual_offer_origination_witness :
    (joinIds [Ev.join "s1" "r1" "a", Ev.join "s2" "r1" "b"]).Nodup
    ∧ ("s2", "s1") ∈ runOrigins (init ["s1", "s2"])
        [Ev.join "s1" "r1" "a", Ev.join "s2" "r1" "b"]
    ∧ ("s1", "s2") ∉ runOrigins (init ["s1", "s2"])
        [Ev.join "s1" "r1" "a", Ev.join "s2" "r1" "b"] :=
  ⟨by decide, by decide,
   no_mutual_offer_origination ["s1", "s2"]
     [Ev.join "s1" "r1" "a", Ev.join "s2" "r1" "b"] "s2" "s1"
     (by decide) (by decide)⟩

